import Mathlib

/-!
Verification of the ingestion-and-normalization pipeline
(`src/source/core/load_document.py`, `src/source/core/normalise_document.py`).

Text is modelled as `List Char` (`PyStr`).  Python's whitespace-sensitive
primitives (`str.strip`, `str.splitlines`, the `re` patterns used by the
source) are embedded directly; the `\s` class is the Python unicode
whitespace set, while `\d` and `\w` are modelled over ASCII.
Floating-point thresholds (`0.6`, the header/footer threshold) are modelled
as rationals.
-/

abbrev PyStr := List Char

/-- Python whitespace (the `Py_UNICODE_ISSPACE` set driving `str.strip`,
`str.isspace` and `\s` in `re`). -/
def pyIsSpace (c : Char) : Bool :=
  c == ' ' || c == '\t' || c == '\n' || c == '\r' || c == '\x0b' || c == '\x0c' ||
  (decide ('\x1c' ≤ c) && decide (c ≤ '\x1f')) || c == '\x85' || c == '\u00A0' ||
  c == '\u1680' || (decide ('\u2000' ≤ c) && decide (c ≤ '\u200A')) ||
  c == '\u2028' || c == '\u2029' || c == '\u202F' || c == '\u205F' || c == '\u3000'

/-- The line-boundary characters recognised by Python `str.splitlines`. -/
def isLineBreakChar (c : Char) : Bool :=
  c == '\n' || c == '\r' || c == '\x0b' || c == '\x0c' || c == '\x1c' ||
  c == '\x1d' || c == '\x1e' || c == '\x85' || c == '\u2028' || c == '\u2029'

theorem pyIsSpace_of_lineBreak {c : Char} (h : isLineBreakChar c = true) :
    pyIsSpace c = true := by
  simp only [isLineBreakChar, Bool.or_eq_true, beq_iff_eq] at h
  rcases h with ((((((((h | h) | h) | h) | h) | h) | h) | h) | h) | h <;> subst h <;> decide

/-- Python `str.strip()`: drop leading and trailing whitespace. -/
def pyStripL (l : PyStr) : PyStr :=
  ((l.dropWhile pyIsSpace).reverse.dropWhile pyIsSpace).reverse

/-- Split off the first line: the text up to the first line boundary and,
when a boundary was found, the remainder after consuming it (`\r\n` counts
as a single boundary, as in `str.splitlines`). -/
def breakLine : PyStr → PyStr × Option PyStr
  | [] => ([], none)
  | c :: cs =>
    if c = '\r' ∧ cs.head? = some '\n' then ([], some cs.tail)
    else if isLineBreakChar c then ([], some cs)
    else
      let r := breakLine cs
      (c :: r.1, r.2)

theorem breakLine_some_length : ∀ (l line rest : PyStr),
    breakLine l = (line, some rest) → rest.length < l.length := by
  intro l
  induction l with
  | nil => intro line rest h; simp [breakLine] at h
  | cons c cs ih =>
    intro line rest h
    by_cases h1 : c = '\r' ∧ cs.head? = some '\n'
    · rw [breakLine, if_pos h1] at h
      have h2 : some cs.tail = some rest := congrArg Prod.snd h
      have h3 : rest = cs.tail := by injection h2 with h2; exact h2.symm
      subst h3
      have h4 : cs.tail.length = cs.length - 1 := List.length_tail cs
      simp only [List.length_cons]
      omega
    · by_cases h2 : isLineBreakChar c
      · rw [breakLine, if_neg h1, if_pos h2] at h
        have h3 : some cs = some rest := congrArg Prod.snd h
        have h4 : rest = cs := by injection h3 with h3; exact h3.symm
        subst h4; simp
      · rw [breakLine, if_neg h1, if_neg h2] at h
        rcases h3 : breakLine cs with ⟨ln, o⟩
        rw [h3] at h
        cases o with
        | none => exact absurd (congrArg Prod.snd h) (by simp)
        | some r2 =>
          have h5 : some r2 = some rest := congrArg Prod.snd h
          have h6 : rest = r2 := by injection h5 with h5; exact h5.symm
          have h7 := ih ln r2 h3
          rw [h6]
          simp only [List.length_cons]
          omega

/-- Python `str.splitlines()`, by fuel-indexed structural recursion
(fuel `l.length` always suffices, see `pySplitlinesF_congr`). -/
def pySplitlinesF : Nat → PyStr → List PyStr
  | _, [] => []
  | 0, _ :: _ => []
  | fuel + 1, c :: cs =>
    match breakLine (c :: cs) with
    | (line, none) => [line]
    | (line, some rest) => line :: pySplitlinesF fuel rest

def pySplitlines (l : PyStr) : List PyStr := pySplitlinesF l.length l

theorem pySplitlinesF_congr : ∀ (fuel : Nat) (l : PyStr), l.length ≤ fuel →
    pySplitlinesF fuel l = pySplitlines l := by
  intro fuel
  induction fuel using Nat.strong_induction_on with
  | _ fuel ih =>
    intro l hl
    match fuel, l with
    | fuel, [] => cases fuel <;> rfl
    | 0, c :: cs => simp at hl
    | fuel + 1, c :: cs =>
      have e1 : pySplitlinesF (fuel + 1) (c :: cs) =
          (match breakLine (c :: cs) with
           | (line, none) => [line]
           | (line, some rest) => line :: pySplitlinesF fuel rest) := rfl
      have e2 : pySplitlines (c :: cs) =
          (match breakLine (c :: cs) with
           | (line, none) => [line]
           | (line, some rest) => line :: pySplitlinesF cs.length rest) := rfl
      rw [e1, e2]
      rcases hb : breakLine (c :: cs) with ⟨line, o⟩
      cases o with
      | none => rfl
      | some rest =>
        have hrl : rest.length < cs.length + 1 := breakLine_some_length _ _ _ hb
        simp only [List.length_cons] at hl
        simp only
        rw [ih fuel (by omega) rest (by omega), ih cs.length (by omega) rest (by omega)]

/-- The one-step unfolding of `pySplitlines`. -/
theorem pySplitlines_step (c : Char) (cs : PyStr) :
    pySplitlines (c :: cs) =
      (match breakLine (c :: cs) with
       | (line, none) => [line]
       | (line, some rest) => line :: pySplitlines rest) := by
  have e2 : pySplitlines (c :: cs) =
      (match breakLine (c :: cs) with
       | (line, none) => [line]
       | (line, some rest) => line :: pySplitlinesF cs.length rest) := rfl
  rw [e2]
  rcases hb : breakLine (c :: cs) with ⟨line, o⟩
  cases o with
  | none => rfl
  | some rest =>
    have hrl : rest.length < cs.length + 1 := breakLine_some_length _ _ _ hb
    simp only
    rw [pySplitlinesF_congr cs.length rest (by omega)]

/-- ASCII `\w` (the source's regexes run on ASCII word characters). -/
def isWordChar (c : Char) : Bool :=
  c.isAlpha || c.isDigit || c == '_'

/-- ASCII `\d` digit run to a number (Python `int`). -/
def natOfDigits (ds : PyStr) : Nat :=
  ds.foldl (fun a c => 10 * a + (c.toNat - '0'.toNat)) 0

/-- `re.sub(r"\s+", " ", text)`: replace each maximal whitespace run by a
single space.  The flag records whether the previous character was part of a
whitespace run whose replacement space has already been emitted. -/
def collapseAux : Bool → PyStr → PyStr
  | _, [] => []
  | prevWS, c :: cs =>
    if pyIsSpace c then
      if prevWS then collapseAux true cs else ' ' :: collapseAux true cs
    else c :: collapseAux false cs

def collapseWS (l : PyStr) : PyStr := collapseAux false l

-- -----------------------------
-- Data model (§3 of the spec)
-- -----------------------------

structure Page where
  page : Nat
  text : PyStr
  is_table_like : Option Bool
deriving DecidableEq, Repr

instance : Inhabited Page := ⟨⟨0, [], none⟩⟩

structure Document where
  doc_id : PyStr
  source_path : PyStr
  file_type : PyStr
  source_quality : PyStr
  pages : List Page
  full_text : PyStr
deriving DecidableEq, Repr

instance : Inhabited Document := ⟨⟨[], [], [], [], [], []⟩⟩

-- -----------------------------
-- normalise_document.py: helpers
-- -----------------------------

/-- `normalize_whitespace` (normalise_document.py, lines 72-82): replace
non-breaking space, thin space and en space by an ordinary space, delete
soft hyphens. -/
def normalize_whitespace (text : PyStr) : PyStr :=
  ((((text.map fun c => if c = ' ' then ' ' else c).map
      fun c => if c = ' ' then ' ' else c).map
      fun c => if c = ' ' then ' ' else c).filter
      fun c => c != '­')

/-- `fix_hyphenation` (normalise_document.py, lines 85-92):
`re.sub(r"(\w+)-\n(\w+)", r"\1\2", text)`, scanning left to right over
non-overlapping matches.  A match can only start at the head of a maximal
word-character run, so when the run is not followed by hyphen + newline +
word character the whole run is copied and scanning resumes after it. -/
def fixHyphF : Nat → PyStr → PyStr
  | _, [] => []
  | 0, l => l
  | fuel + 1, c :: cs =>
    if isWordChar c then
      if (cs.dropWhile isWordChar).head? = some '-' ∧
         (cs.dropWhile isWordChar).tail.head? = some '\n' ∧
         (cs.dropWhile isWordChar).tail.tail.takeWhile isWordChar ≠ [] then
        (c :: cs.takeWhile isWordChar) ++
          (cs.dropWhile isWordChar).tail.tail.takeWhile isWordChar ++
          fixHyphF fuel ((cs.dropWhile isWordChar).tail.tail.dropWhile isWordChar)
      else (c :: cs.takeWhile isWordChar) ++ fixHyphF fuel (cs.dropWhile isWordChar)
    else c :: fixHyphF fuel cs

def fix_hyphenation (l : PyStr) : PyStr := fixHyphF l.length l

theorem fixHyphF_congr : ∀ (fuel : Nat) (l : PyStr), l.length ≤ fuel →
    fixHyphF fuel l = fix_hyphenation l := by
  intro fuel
  induction fuel using Nat.strong_induction_on with
  | _ fuel ih =>
    intro l hl
    match fuel, l with
    | fuel, [] => cases fuel <;> rfl
    | 0, c :: cs => simp at hl
    | fuel + 1, c :: cs =>
      have hdw := (List.dropWhile_sublist (l := cs) isWordChar).length_le
      have htt := List.length_tail (cs.dropWhile isWordChar)
      have httt := List.length_tail (cs.dropWhile isWordChar).tail
      have hdd := (List.dropWhile_sublist (l := (cs.dropWhile isWordChar).tail.tail)
        isWordChar).length_le
      simp only [List.length_cons] at hl
      have e1 : fixHyphF (fuel + 1) (c :: cs) =
          (if isWordChar c then
            if (cs.dropWhile isWordChar).head? = some '-' ∧
               (cs.dropWhile isWordChar).tail.head? = some '\n' ∧
               (cs.dropWhile isWordChar).tail.tail.takeWhile isWordChar ≠ [] then
              (c :: cs.takeWhile isWordChar) ++
                (cs.dropWhile isWordChar).tail.tail.takeWhile isWordChar ++
                fixHyphF fuel ((cs.dropWhile isWordChar).tail.tail.dropWhile isWordChar)
            else (c :: cs.takeWhile isWordChar) ++ fixHyphF fuel (cs.dropWhile isWordChar)
          else c :: fixHyphF fuel cs) := rfl
      have e2 : fix_hyphenation (c :: cs) =
          (if isWordChar c then
            if (cs.dropWhile isWordChar).head? = some '-' ∧
               (cs.dropWhile isWordChar).tail.head? = some '\n' ∧
               (cs.dropWhile isWordChar).tail.tail.takeWhile isWordChar ≠ [] then
              (c :: cs.takeWhile isWordChar) ++
                (cs.dropWhile isWordChar).tail.tail.takeWhile isWordChar ++
                fixHyphF cs.length ((cs.dropWhile isWordChar).tail.tail.dropWhile isWordChar)
            else (c :: cs.takeWhile isWordChar) ++ fixHyphF cs.length (cs.dropWhile isWordChar)
          else c :: fixHyphF cs.length cs) := rfl
      rw [e1, e2]
      by_cases hw : isWordChar c
      · rw [if_pos hw, if_pos hw]
        by_cases hcond : (cs.dropWhile isWordChar).head? = some '-' ∧
            (cs.dropWhile isWordChar).tail.head? = some '\n' ∧
            (cs.dropWhile isWordChar).tail.tail.takeWhile isWordChar ≠ []
        · rw [if_pos hcond, if_pos hcond]
          rw [ih fuel (by omega) _ (by omega), ih cs.length (by omega) _ (by omega)]
        · rw [if_neg hcond, if_neg hcond]
          rw [ih fuel (by omega) _ (by omega), ih cs.length (by omega) _ (by omega)]
      · rw [if_neg hw, if_neg hw]
        rw [ih fuel (by omega) cs (by omega), ih cs.length (by omega) cs (by omega)]

/-- Unfolding equations of `fix_hyphenation`. -/
theorem fix_hyphenation_nil : fix_hyphenation [] = [] := rfl

theorem fix_hyphenation_nonword {c : Char} (cs : PyStr) (hw : isWordChar c = false) :
    fix_hyphenation (c :: cs) = c :: fix_hyphenation cs := by
  have e2 : fix_hyphenation (c :: cs) =
      (if isWordChar c then
        if (cs.dropWhile isWordChar).head? = some '-' ∧
           (cs.dropWhile isWordChar).tail.head? = some '\n' ∧
           (cs.dropWhile isWordChar).tail.tail.takeWhile isWordChar ≠ [] then
          (c :: cs.takeWhile isWordChar) ++
            (cs.dropWhile isWordChar).tail.tail.takeWhile isWordChar ++
            fixHyphF cs.length ((cs.dropWhile isWordChar).tail.tail.dropWhile isWordChar)
        else (c :: cs.takeWhile isWordChar) ++ fixHyphF cs.length (cs.dropWhile isWordChar)
      else c :: fixHyphF cs.length cs) := rfl
  rw [e2, if_neg (by simp [hw])]
  rw [fixHyphF_congr cs.length cs (le_refl _)]

theorem fix_hyphenation_word_nomatch {c : Char} (cs : PyStr) (hw : isWordChar c = true)
    (hcond : ¬ ((cs.dropWhile isWordChar).head? = some '-' ∧
        (cs.dropWhile isWordChar).tail.head? = some '\n' ∧
        (cs.dropWhile isWordChar).tail.tail.takeWhile isWordChar ≠ [])) :
    fix_hyphenation (c :: cs) =
      (c :: cs.takeWhile isWordChar) ++ fix_hyphenation (cs.dropWhile isWordChar) := by
  have e2 : fix_hyphenation (c :: cs) =
      (if isWordChar c then
        if (cs.dropWhile isWordChar).head? = some '-' ∧
           (cs.dropWhile isWordChar).tail.head? = some '\n' ∧
           (cs.dropWhile isWordChar).tail.tail.takeWhile isWordChar ≠ [] then
          (c :: cs.takeWhile isWordChar) ++
            (cs.dropWhile isWordChar).tail.tail.takeWhile isWordChar ++
            fixHyphF cs.length ((cs.dropWhile isWordChar).tail.tail.dropWhile isWordChar)
        else (c :: cs.takeWhile isWordChar) ++ fixHyphF cs.length (cs.dropWhile isWordChar)
      else c :: fixHyphF cs.length cs) := rfl
  rw [e2, if_pos hw, if_neg hcond]
  have hdw := (List.dropWhile_sublist (l := cs) isWordChar).length_le
  rw [fixHyphF_congr cs.length _ (by omega)]

theorem fix_hyphenation_word_match {c : Char} (cs : PyStr) (hw : isWordChar c = true)
    (hcond : (cs.dropWhile isWordChar).head? = some '-' ∧
        (cs.dropWhile isWordChar).tail.head? = some '\n' ∧
        (cs.dropWhile isWordChar).tail.tail.takeWhile isWordChar ≠ []) :
    fix_hyphenation (c :: cs) =
      (c :: cs.takeWhile isWordChar) ++
        (cs.dropWhile isWordChar).tail.tail.takeWhile isWordChar ++
        fix_hyphenation ((cs.dropWhile isWordChar).tail.tail.dropWhile isWordChar) := by
  have e2 : fix_hyphenation (c :: cs) =
      (if isWordChar c then
        if (cs.dropWhile isWordChar).head? = some '-' ∧
           (cs.dropWhile isWordChar).tail.head? = some '\n' ∧
           (cs.dropWhile isWordChar).tail.tail.takeWhile isWordChar ≠ [] then
          (c :: cs.takeWhile isWordChar) ++
            (cs.dropWhile isWordChar).tail.tail.takeWhile isWordChar ++
            fixHyphF cs.length ((cs.dropWhile isWordChar).tail.tail.dropWhile isWordChar)
        else (c :: cs.takeWhile isWordChar) ++ fixHyphF cs.length (cs.dropWhile isWordChar)
      else c :: fixHyphF cs.length cs) := rfl
  rw [e2, if_pos hw, if_pos hcond]
  have hdw := (List.dropWhile_sublist (l := cs) isWordChar).length_le
  have htt := List.length_tail (cs.dropWhile isWordChar)
  have httt := List.length_tail (cs.dropWhile isWordChar).tail
  have hdd := (List.dropWhile_sublist (l := (cs.dropWhile isWordChar).tail.tail)
    isWordChar).length_le
  rw [fixHyphF_congr cs.length _ (by omega)]

/-- Python `str.split("\n\n")`: leftmost, non-overlapping split on the
two-character separator (fuel `l.length` always suffices). -/
def splitNNF : Nat → PyStr → List PyStr
  | _, [] => [[]]
  | 0, _ :: _ => []
  | fuel + 1, c :: rest =>
    if c = '\n' ∧ rest.head? = some '\n' then [] :: splitNNF fuel rest.tail
    else
      match splitNNF fuel rest with
      | [] => [[c]]
      | chunk :: more => (c :: chunk) :: more

def splitNN (l : PyStr) : List PyStr := splitNNF l.length l

theorem splitNNF_congr : ∀ (fuel : Nat) (l : PyStr), l.length ≤ fuel →
    splitNNF fuel l = splitNN l := by
  intro fuel
  induction fuel using Nat.strong_induction_on with
  | _ fuel ih =>
    intro l hl
    match fuel, l with
    | fuel, [] => cases fuel <;> rfl
    | 0, c :: cs => simp at hl
    | fuel + 1, c :: cs =>
      have htl := List.length_tail cs
      simp only [List.length_cons] at hl
      have e1 : splitNNF (fuel + 1) (c :: cs) =
          (if c = '\n' ∧ cs.head? = some '\n' then [] :: splitNNF fuel cs.tail
           else
             match splitNNF fuel cs with
             | [] => [[c]]
             | chunk :: more => (c :: chunk) :: more) := rfl
      have e2 : splitNN (c :: cs) =
          (if c = '\n' ∧ cs.head? = some '\n' then [] :: splitNNF cs.length cs.tail
           else
             match splitNNF cs.length cs with
             | [] => [[c]]
             | chunk :: more => (c :: chunk) :: more) := rfl
      rw [e1, e2]
      by_cases hc : c = '\n' ∧ cs.head? = some '\n'
      · rw [if_pos hc, if_pos hc]
        rw [ih fuel (by omega) cs.tail (by omega), ih cs.length (by omega) cs.tail (by omega)]
      · rw [if_neg hc, if_neg hc]
        rw [ih fuel (by omega) cs (by omega), ih cs.length (by omega) cs (by omega)]

theorem splitNN_step (c : Char) (cs : PyStr) :
    splitNN (c :: cs) =
      (if c = '\n' ∧ cs.head? = some '\n' then [] :: splitNN cs.tail
       else
         match splitNN cs with
         | [] => [[c]]
         | chunk :: more => (c :: chunk) :: more) := by
  have htl := List.length_tail cs
  have e2 : splitNN (c :: cs) =
      (if c = '\n' ∧ cs.head? = some '\n' then [] :: splitNNF cs.length cs.tail
       else
         match splitNNF cs.length cs with
         | [] => [[c]]
         | chunk :: more => (c :: chunk) :: more) := rfl
  rw [e2, splitNNF_congr cs.length cs.tail (by omega), splitNNF_congr cs.length cs (by omega)]

/-- `reflow_lines` (normalise_document.py, lines 95-102). -/
def reflow_lines (text : PyStr) : PyStr :=
  let paragraphs := ((splitNN text).map pyStripL).filter (fun p => p ≠ [])
  let reflowed := paragraphs.map
    (fun p => pyStripL (collapseWS (List.intercalate [' '] (pySplitlines p))))
  List.intercalate ['\n', '\n'] reflowed

-- -----------------------------
-- load_document.py: page splitting
-- -----------------------------

/-- Case-insensitive literal match (the `re.IGNORECASE` flag): consume the
pattern from the front of the input, returning the remainder. -/
def matchCI : PyStr → PyStr → Option PyStr
  | [], r => some r
  | p :: ps, r =>
    match r with
    | [] => none
    | d :: ds => if d.toLower = p.toLower then matchCI ps ds else none

/-- Attempt to match `\[\[\s*PAGE\s+(\d+)\s*\]\]` (case-insensitive) at the
head of the input.  Returns the captured number and the remainder after the
match.  Each greedy sub-pattern is maximal-munch, which coincides with the
backtracking semantics here because each following literal is excluded from
the preceding character class. -/
def matchMarkerAt (l : PyStr) : Option (Nat × PyStr) :=
  match l with
  | '[' :: '[' :: r =>
    (match matchCI ['P', 'A', 'G', 'E'] (r.dropWhile pyIsSpace) with
     | none => none
     | some r2 =>
       if r2.takeWhile pyIsSpace = [] then none
       else
         (let r3 := r2.dropWhile pyIsSpace
          let ds := r3.takeWhile Char.isDigit
          if ds = [] then none
          else
            (match (r3.dropWhile Char.isDigit).dropWhile pyIsSpace with
             | ']' :: ']' :: r6 => some (natOfDigits ds, r6)
             | _ => none)))
  | _ => none

/-- Leftmost marker match (`re.finditer` finds the leftmost match first):
the text before the match, the captured page number, and the remainder
after the match. -/
def findMarker : PyStr → Option (PyStr × Nat × PyStr)
  | [] => none
  | c :: cs =>
    match matchMarkerAt (c :: cs) with
    | some (n, rest) => some ([], n, rest)
    | none =>
      match findMarker cs with
      | some (pre, n, rest) => some (c :: pre, n, rest)
      | none => none

theorem matchCI_length : ∀ (ps r r2 : PyStr), matchCI ps r = some r2 → r2.length ≤ r.length := by
  intro ps
  induction ps with
  | nil => intro r r2 h; simp [matchCI] at h; simp [h]
  | cons p ps ih =>
    intro r r2 h
    cases r with
    | nil => simp [matchCI] at h
    | cons d ds =>
      simp only [matchCI] at h
      by_cases hd : d.toLower = p.toLower
      · rw [if_pos hd] at h
        have := ih ds r2 h
        simp only [List.length_cons]
        omega
      · rw [if_neg hd] at h; simp at h

theorem matchMarkerAt_length {l : PyStr} {n : Nat} {rest : PyStr}
    (h : matchMarkerAt l = some (n, rest)) : rest.length < l.length := by
  match l with
  | [] => simp [matchMarkerAt] at h
  | [c] =>
    simp [matchMarkerAt] at h
  | c :: d :: r =>
    by_cases hc : c = '[' ∧ d = '['
    · obtain ⟨hc1, hc2⟩ := hc
      subst hc1; subst hc2
      simp only [matchMarkerAt] at h
      rcases hm : matchCI ['P', 'A', 'G', 'E'] (r.dropWhile pyIsSpace) with _ | r2
      · rw [hm] at h; simp at h
      · rw [hm] at h
        simp only at h
        split at h
        · simp at h
        · split at h
          · simp at h
          · rcases hsp : ((r.dropWhile pyIsSpace |> matchCI ['P', 'A', 'G', 'E']) ) with _ | _
            · rw [hsp] at hm; simp at hm
            · -- digest the final match on "]]"
              revert h
              split
              · intro h
                rename_i r6 heq
                injection h with h'
                injection h' with h1 h2
                subst h2
                -- chain the length bounds
                have l1 : (r.dropWhile pyIsSpace).length ≤ r.length :=
                  (List.dropWhile_sublist _).length_le
                have l2 : r2.length ≤ (r.dropWhile pyIsSpace).length :=
                  matchCI_length _ _ _ hm
                have l3 : (r2.dropWhile pyIsSpace).length ≤ r2.length :=
                  (List.dropWhile_sublist _).length_le
                have l4 : ((r2.dropWhile pyIsSpace).dropWhile Char.isDigit).length ≤
                    (r2.dropWhile pyIsSpace).length := (List.dropWhile_sublist _).length_le
                have l5 : (((r2.dropWhile pyIsSpace).dropWhile Char.isDigit).dropWhile pyIsSpace).length ≤
                    ((r2.dropWhile pyIsSpace).dropWhile Char.isDigit).length :=
                  (List.dropWhile_sublist _).length_le
                have l6 : r6.length + 2 =
                    (((r2.dropWhile pyIsSpace).dropWhile Char.isDigit).dropWhile pyIsSpace).length := by
                  rw [heq]; simp
                simp only [List.length_cons]
                omega
              · intro h; simp at h
    · have : matchMarkerAt (c :: d :: r) = none := by
        simp only [matchMarkerAt]
        split
        · rename_i heq
          injection heq with e1 e2
          injection e2 with e2 e3
          exact absurd ⟨e1, e2⟩ hc
        · rfl
      rw [this] at h; simp at h

theorem findMarker_some_length : ∀ (l pre : PyStr) (n : Nat) (rest : PyStr),
    findMarker l = some (pre, n, rest) → rest.length < l.length := by
  intro l
  induction l with
  | nil => intro pre n rest h; simp [findMarker] at h
  | cons c cs ih =>
    intro pre n rest h
    rcases hm : matchMarkerAt (c :: cs) with _ | ⟨n2, r2⟩
    · rw [findMarker, hm] at h
      rcases hf : findMarker cs with _ | ⟨pre2, n3, r3⟩
      · rw [hf] at h; simp at h
      · rw [hf] at h
        simp only [Option.some.injEq, Prod.mk.injEq] at h
        obtain ⟨-, -, hr⟩ := h
        have := ih pre2 n3 r3 hf
        rw [← hr]
        simp only [List.length_cons]
        omega
    · rw [findMarker, hm] at h
      simp only [Option.some.injEq, Prod.mk.injEq] at h
      obtain ⟨-, -, hr⟩ := h
      have := matchMarkerAt_length hm
      rw [← hr]
      omega

/-- The marker branch of `_load_text` (load_document.py, lines 103-116):
`n` is the page number of the pending marker and `rest` the content after
that marker; each page's text runs to the start of the next marker (or the
end of content) and empty-after-strip pages are dropped. -/
def markerPagesF : Nat → Nat → PyStr → List Page
  | 0, _, _ => []
  | fuel + 1, n, rest =>
    match findMarker rest with
    | none => if pyStripL rest = [] then [] else [⟨n, pyStripL rest, none⟩]
    | some (pre, n2, rest2) =>
      (if pyStripL pre = [] then [] else [⟨n, pyStripL pre, none⟩]) ++
        markerPagesF fuel n2 rest2

def markerPages (n : Nat) (rest : PyStr) : List Page :=
  markerPagesF (rest.length + 1) n rest

theorem markerPagesF_congr : ∀ (fuel : Nat) (n : Nat) (rest : PyStr),
    rest.length + 1 ≤ fuel → markerPagesF fuel n rest = markerPages n rest := by
  intro fuel
  induction fuel using Nat.strong_induction_on with
  | _ fuel ih =>
    intro n rest hl
    match fuel with
    | 0 => omega
    | fuel + 1 =>
      have e1 : markerPagesF (fuel + 1) n rest =
          (match findMarker rest with
           | none => if pyStripL rest = [] then [] else [⟨n, pyStripL rest, none⟩]
           | some (pre, n2, rest2) =>
             (if pyStripL pre = [] then [] else [⟨n, pyStripL pre, none⟩]) ++
               markerPagesF fuel n2 rest2) := rfl
      have e2 : markerPages n rest =
          (match findMarker rest with
           | none => if pyStripL rest = [] then [] else [⟨n, pyStripL rest, none⟩]
           | some (pre, n2, rest2) =>
             (if pyStripL pre = [] then [] else [⟨n, pyStripL pre, none⟩]) ++
               markerPagesF rest.length n2 rest2) := rfl
      rw [e1, e2]
      rcases hfm : findMarker rest with _ | ⟨pre, n2, rest2⟩
      · rfl
      · have hlt := findMarker_some_length rest pre n2 rest2 hfm
        simp only
        rw [ih fuel (by omega) n2 rest2 (by omega),
            ih rest.length (by omega) n2 rest2 (by omega)]

theorem markerPages_step (n : Nat) (rest : PyStr) :
    markerPages n rest =
      (match findMarker rest with
       | none => if pyStripL rest = [] then [] else [⟨n, pyStripL rest, none⟩]
       | some (pre, n2, rest2) =>
         (if pyStripL pre = [] then [] else [⟨n, pyStripL pre, none⟩]) ++
           markerPages n2 rest2) := by
  have e2 : markerPages n rest =
      (match findMarker rest with
       | none => if pyStripL rest = [] then [] else [⟨n, pyStripL rest, none⟩]
       | some (pre, n2, rest2) =>
         (if pyStripL pre = [] then [] else [⟨n, pyStripL pre, none⟩]) ++
           markerPagesF rest.length n2 rest2) := rfl
  rw [e2]
  rcases hfm : findMarker rest with _ | ⟨pre, n2, rest2⟩
  · rfl
  · have hlt := findMarker_some_length rest pre n2 rest2 hfm
    simp only
    rw [markerPagesF_congr rest.length n2 rest2 (by omega)]

/-- The block-fallback loop of `_load_text` (load_document.py, lines
118-139): accumulate lines (with their newline) into `current`, close a
page when the buffer length reaches `block_size`, and emit a non-empty
remainder as a final page. -/
def fbGo (block_size : Nat) : List PyStr → PyStr → Nat → List Page
  | [], current, page =>
    if pyStripL current = [] then [] else [⟨page, pyStripL current, none⟩]
  | line :: rest, current, page =>
    let cur2 := current ++ line ++ ['\n']
    if block_size ≤ cur2.length then
      ⟨page, pyStripL cur2, none⟩ :: fbGo block_size rest [] (page + 1)
    else fbGo block_size rest cur2 page

/-- `_load_text` (load_document.py, lines 84-139). -/
def _load_text (content : PyStr) (block_size : Nat) : List Page :=
  match findMarker content with
  | some (_, n, rest) => markerPages n rest
  | none => fbGo block_size (pySplitlines content) [] 1

/-- `_load_pdf` (load_document.py, lines 62-81).  The external PyMuPDF
extraction (`fitz`) is modelled as the given list of raw per-page texts;
the wrapper strips each page, omits blank pages entirely and numbers pages
by their 1-based physical index. -/
def pdfGo (i : Nat) : List PyStr → List Page
  | [] => []
  | t :: ts => (if pyStripL t = [] then [] else [⟨i, pyStripL t, none⟩]) ++ pdfGo (i + 1) ts

def _load_pdf (pageTexts : List PyStr) : List Page := pdfGo 1 pageTexts

-- -----------------------------
-- load_document.py: resolution
-- -----------------------------

inductive LoadError where
  | NotFound
  | AmbiguousSource
  | UnsupportedType
deriving DecidableEq, Repr

instance {ε α : Type} [DecidableEq ε] [DecidableEq α] : DecidableEq (Except ε α) := fun a b =>
  match a, b with
  | .ok x, .ok y =>
    if h : x = y then isTrue (by rw [h]) else isFalse (by intro hc; injection hc; contradiction)
  | .error x, .error y =>
    if h : x = y then isTrue (by rw [h]) else isFalse (by intro hc; injection hc; contradiction)
  | .ok _, .error _ => isFalse (by intro hc; injection hc)
  | .error _, .ok _ => isFalse (by intro hc; injection hc)

/-- The filesystem as seen by `load_document`: whether the processed
directory exists and holds `docId.md` / `docId.txt`, the suffixes of the
raw files matching `docId.*` (in glob order), the canonical resolved path,
and the contents behind the resolved file (text content for `.txt`/`.md`,
per-page extracted texts for `.pdf`). -/
structure FS where
  processedDirExists : Bool
  processedMd : Bool
  processedTxt : Bool
  rawExts : List PyStr
  resolvedPath : PyStr
  textContent : PyStr
  pdfPages : List PyStr
deriving Repr

def SUPPORTED_EXTS : List PyStr := [".pdf".data, ".txt".data, ".md".data]

def lowerStr (l : PyStr) : PyStr := l.map Char.toLower

/-- The shared tail of `load_document` (load_document.py, lines 40-59):
extension check, dispatch, full-text assembly. -/
def loadResolved (fs : FS) (doc_id : PyStr) (rawExt : PyStr) (quality : PyStr) :
    Except LoadError Document :=
  let ext := lowerStr rawExt
  if ¬ SUPPORTED_EXTS.contains ext then .error .UnsupportedType
  else
    let pages := if ext = ".pdf".data then _load_pdf fs.pdfPages
                 else _load_text fs.textContent 1000
    .ok { doc_id := doc_id
          source_path := fs.resolvedPath
          file_type := ext.dropWhile (fun c => c = '.')
          source_quality := quality
          pages := pages
          full_text := List.intercalate ['\n', '\n'] (pages.map (fun p => p.text)) }

/-- `load_document` (load_document.py, lines 9-59). -/
def load_document (fs : FS) (doc_id : PyStr) : Except LoadError Document :=
  let processed_matches : List PyStr :=
    if fs.processedDirExists then
      (if fs.processedMd then [".md".data] else []) ++
      (if fs.processedTxt then [".txt".data] else [])
    else []
  match processed_matches with
  | ext :: _ => loadResolved fs doc_id ext "manual".data
  | [] =>
    match fs.rawExts with
    | [] => .error .NotFound
    | [ext] => loadResolved fs doc_id ext "auto".data
    | _ => .error .AmbiguousSource

-- -----------------------------
-- normalise_document.py: detection and removal
-- -----------------------------

/-- `[l.strip() for l in text.splitlines() if l.strip()]`. -/
def nonBlankStrippedLines (text : PyStr) : List PyStr :=
  ((pySplitlines text).map pyStripL).filter (fun l => l ≠ [])

/-- Python's `lines[-b:]` slice: for `b = 0` this is `lines[0:]`, i.e. the
whole list, not the empty suffix. -/
def pySliceLast (l : List PyStr) (b : Nat) : List PyStr :=
  if b = 0 then l else l.drop (l.length - b)

/-- `detect_repeated_lines` (normalise_document.py, lines 109-132).  The
returned Python set is modelled as a deduplicated list; the float
`count / total_pages >= threshold` test is modelled over `ℚ`. -/
def detect_repeated_lines (pages : List Page) (top_n bottom_n : Nat) (threshold : ℚ) :
    List PyStr :=
  let candidate_lines := pages.flatMap (fun p =>
    let lines := nonBlankStrippedLines p.text
    lines.take top_n ++ pySliceLast lines bottom_n)
  let total_pages : Nat := max pages.length 1
  candidate_lines.dedup.filter
    (fun line => threshold ≤ ((candidate_lines.count line : ℚ) / (total_pages : ℚ)))

/-- `remove_lines` (normalise_document.py, lines 135-143). -/
def remove_lines (text : PyStr) (lines_to_remove : List PyStr) : PyStr :=
  pyStripL (List.intercalate ['\n']
    ((pySplitlines text).filter (fun line => ¬ lines_to_remove.contains (pyStripL line))))

/-- `is_table_like` (normalise_document.py, lines 150-165); the float
`ratio > 0.6` test is modelled over `ℚ`. -/
def is_table_like (text : PyStr) : Bool :=
  let lines := (pySplitlines text).filter (fun l => pyStripL l ≠ [])
  if lines = [] then false
  else
    decide ((0.6 : ℚ) <
      (((lines.filter (fun l => (pyStripL l).length < 40)).length : ℚ) / (lines.length : ℚ)))

/-- `"\n\n".join(p["text"] for p in pages if p["text"].strip())`
(normalise_document.py, line 63). -/
def joinNonEmptyPages (pages : List Page) : PyStr :=
  List.intercalate ['\n', '\n']
    ((pages.filter (fun p => pyStripL p.text ≠ [])).map (fun p => p.text))

/-- `normalize_document` (normalise_document.py, lines 12-65), as a value
transformer: stages in source order on the (deep-copied) page list. -/
def normalize_document (document : Document) (header_footer_threshold : ℚ)
    (top_n bottom_n : Nat) (drop_table_like_pages : Bool) : Document :=
  let pages1 := document.pages.map
    (fun p => { p with text := fix_hyphenation (normalize_whitespace p.text) })
  let repeated_lines := detect_repeated_lines pages1 top_n bottom_n header_footer_threshold
  let pages2 := pages1.map (fun p => { p with text := remove_lines p.text repeated_lines })
  let pages3 := pages2.map (fun p => { p with is_table_like := some (is_table_like p.text) })
  let pages4 := pages3.map (fun p => { p with text := reflow_lines p.text })
  let pages5 := if drop_table_like_pages then
      pages4.filter (fun p => !(p.is_table_like.getD false))
    else pages4
  { document with pages := pages5, full_text := joinNonEmptyPages pages5 }

-- -----------------------------
-- Heap model of normalize_document's mutation discipline
-- -----------------------------

/-- Page dictionaries are mutable objects in the source; the heap holds
their current values, and a document refers to its pages by address. -/
abbrev Heap := List Page

structure DocRef where
  doc_id : PyStr
  source_path : PyStr
  file_type : PyStr
  source_quality : PyStr
  pageRefs : List Nat
  full_text : PyStr
deriving DecidableEq, Repr

/-- Dereference a document: the value a caller observes through it. -/
def readDoc (h : Heap) (d : DocRef) : Document :=
  { doc_id := d.doc_id
    source_path := d.source_path
    file_type := d.file_type
    source_quality := d.source_quality
    pages := d.pageRefs.map (fun r => h.getD r default)
    full_text := d.full_text }

/-- One `for p in pages: p[...] = ...` loop: update each referenced page
cell in place. -/
def updEach (h : Heap) (rs : List Nat) (f : Page → Page) : Heap :=
  rs.foldl (fun acc r => acc.set r (f (acc.getD r default))) h

/-- `normalize_document` over the heap: `deepcopy` allocates fresh cells
for every page dictionary (load_document.py line 30), after which every
mutation targets only the fresh cells. -/
def normalize_document_heap (h : Heap) (document : DocRef) (header_footer_threshold : ℚ)
    (top_n bottom_n : Nat) (drop_table_like_pages : Bool) : Heap × DocRef :=
  let n := h.length
  let h1 := h ++ document.pageRefs.map (fun r => h.getD r default)
  let refs := (List.range document.pageRefs.length).map (fun i => n + i)
  let h2 := updEach h1 refs (fun p => { p with text := fix_hyphenation (normalize_whitespace p.text) })
  let repeated_lines := detect_repeated_lines (refs.map (fun r => h2.getD r default))
      top_n bottom_n header_footer_threshold
  let h3 := updEach h2 refs (fun p => { p with text := remove_lines p.text repeated_lines })
  let h4 := updEach h3 refs (fun p => { p with is_table_like := some (is_table_like p.text) })
  let h5 := updEach h4 refs (fun p => { p with text := reflow_lines p.text })
  let kept := if drop_table_like_pages then
      refs.filter (fun r => !((h5.getD r default).is_table_like.getD false))
    else refs
  (h5, { document with
          pageRefs := kept
          full_text := joinNonEmptyPages (kept.map (fun r => h5.getD r default)) })

-- -----------------------------
-- Basic lemmas about pyStripL
-- -----------------------------

theorem pyStripL_eq_rdrop (l : PyStr) :
    pyStripL l = List.rdropWhile pyIsSpace (l.dropWhile pyIsSpace) := rfl

theorem pyStripL_nil : pyStripL [] = [] := rfl

theorem pyStripL_eq_nil_iff {l : PyStr} : pyStripL l = [] ↔ ∀ c ∈ l, pyIsSpace c = true := by
  rw [pyStripL_eq_rdrop, List.rdropWhile_eq_nil_iff]
  constructor
  · intro h c hc
    rcases List.mem_append.mp (by
        rw [List.takeWhile_append_dropWhile (p := pyIsSpace) (l := l)]; exact hc :
        c ∈ l.takeWhile pyIsSpace ++ l.dropWhile pyIsSpace) with h1 | h1
    · exact List.mem_takeWhile_imp h1
    · exact h c h1
  · intro h c hc
    exact h c (List.dropWhile_subset _ hc)

theorem pyStripL_prefix_dropWhile (l : PyStr) :
    pyStripL l <+: l.dropWhile pyIsSpace := by
  rw [pyStripL_eq_rdrop]
  exact List.rdropWhile_prefix _ _

theorem pyStripL_sublist (l : PyStr) : List.Sublist (pyStripL l) l := by
  have h1 : List.Sublist (pyStripL l) (l.dropWhile pyIsSpace) :=
    (pyStripL_prefix_dropWhile l).sublist
  exact h1.trans (List.dropWhile_sublist _)

theorem mem_of_mem_pyStripL {l : PyStr} {c : Char} (h : c ∈ pyStripL l) : c ∈ l :=
  (pyStripL_sublist l).subset h

theorem pyStripL_head_not_space {l t : PyStr} {c : Char} (h : pyStripL l = c :: t) :
    pyIsSpace c = false := by
  obtain ⟨suf, hs⟩ := pyStripL_prefix_dropWhile l
  rw [h] at hs
  have hh : (l.dropWhile pyIsSpace).head? = some c := by
    rw [← hs]; rfl
  have := List.head?_dropWhile_not pyIsSpace l
  rw [hh] at this
  exact this

theorem pyStripL_getLast_not_space {l : PyStr} {c : Char}
    (h : (pyStripL l).getLast? = some c) : pyIsSpace c = false := by
  have hne : pyStripL l ≠ [] := by
    intro hnil; rw [hnil] at h; simp at h
  rw [pyStripL_eq_rdrop] at h hne
  have := List.rdropWhile_last_not pyIsSpace (l.dropWhile pyIsSpace) hne
  rw [List.getLast?_eq_getLast _ hne] at h
  have hc : (List.rdropWhile pyIsSpace (l.dropWhile pyIsSpace)).getLast hne = c := by
    injection h
  rw [hc] at this
  simpa using this

theorem dropWhile_eq_self_of_head {p : Char → Bool} {l : PyStr}
    (h : ∀ c t, l = c :: t → p c = false) : l.dropWhile p = l := by
  cases l with
  | nil => rfl
  | cons c t => rw [List.dropWhile_cons_of_neg]; simp [h c t rfl]

theorem pyStripL_idem (l : PyStr) : pyStripL (pyStripL l) = pyStripL l := by
  have h1 : (pyStripL l).dropWhile pyIsSpace = pyStripL l := by
    apply dropWhile_eq_self_of_head
    intro c t hct
    exact pyStripL_head_not_space hct
  rw [pyStripL_eq_rdrop, h1, List.rdropWhile_eq_self_iff]
  intro hne
  have : (pyStripL l).getLast? = some ((pyStripL l).getLast hne) :=
    List.getLast?_eq_getLast _ hne
  have := pyStripL_getLast_not_space this
  simp [this]

theorem pyStripL_ne_nil_of_mem {l : PyStr} {c : Char} (hc : c ∈ l)
    (hns : pyIsSpace c = false) : pyStripL l ≠ [] := by
  intro h
  rw [pyStripL_eq_nil_iff] at h
  rw [h c hc] at hns
  exact absurd hns (by simp)

-- -----------------------------
-- C7: table flagging
-- -----------------------------

theorem point_six_lt_div_iff {a b : Nat} (hb : 0 < b) :
    ((0.6 : ℚ) < (a : ℚ) / (b : ℚ)) ↔ 3 * b < 5 * a := by
  rw [lt_div_iff (by exact_mod_cast hb), show (0.6 : ℚ) = 3 / 5 by norm_num,
    div_mul_eq_mul_div, div_lt_iff (by norm_num)]
  constructor
  · intro h
    have : ((3 * b : Nat) : ℚ) < ((5 * a : Nat) : ℚ) := by push_cast; linarith
    exact_mod_cast this
  · intro h
    have : ((3 * b : Nat) : ℚ) < ((5 * a : Nat) : ℚ) := by exact_mod_cast h
    push_cast at this
    linarith

/-- C7: `is_table_like` splits its text into non-blank lines and returns
`true` iff the fraction of lines whose stripped length is under 40 strictly
exceeds 0.6 (equivalently `3 * lines < 5 * short`); with no non-blank lines
it returns `false`, and a text where exactly 60% of the lines are short is
not flagged (the boundary is exclusive). -/
theorem c7_table_like_iff (t : PyStr) :
    (is_table_like t = true ↔
      ((pySplitlines t).filter (fun l => pyStripL l ≠ []) ≠ [] ∧
        3 * ((pySplitlines t).filter (fun l => pyStripL l ≠ [])).length <
          5 * (((pySplitlines t).filter (fun l => pyStripL l ≠ [])).filter
            (fun l => (pyStripL l).length < 40)).length)) ∧
    (5 * (((pySplitlines t).filter (fun l => pyStripL l ≠ [])).filter
            (fun l => (pyStripL l).length < 40)).length =
        3 * ((pySplitlines t).filter (fun l => pyStripL l ≠ [])).length →
      is_table_like t = false) := by
  by_cases hL : (pySplitlines t).filter (fun l => pyStripL l ≠ []) = []
  · have hfalse : is_table_like t = false := by
      simp only [is_table_like]
      rw [if_pos hL]
    constructor
    · rw [hfalse]
      constructor
      · intro h; exact absurd h (by simp)
      · intro h; exact absurd hL h.1
    · intro _; exact hfalse
  · have hpos : 0 < ((pySplitlines t).filter (fun l => pyStripL l ≠ [])).length :=
      List.length_pos.mpr hL
    have hiff : is_table_like t = true ↔
        3 * ((pySplitlines t).filter (fun l => pyStripL l ≠ [])).length <
          5 * (((pySplitlines t).filter (fun l => pyStripL l ≠ [])).filter
            (fun l => (pyStripL l).length < 40)).length := by
      simp only [is_table_like, if_neg hL, decide_eq_true_eq]
      exact point_six_lt_div_iff hpos
    constructor
    · rw [hiff]
      exact ⟨fun h => ⟨hL, h⟩, fun h => h.2⟩
    · intro heq
      cases hb : is_table_like t with
      | false => rfl
      | true =>
        have := hiff.mp hb
        omega

def tableBoundaryText : PyStr :=
  "aa\nbb\ncc\n0123456789012345678901234567890123456789x\n0123456789012345678901234567890123456789y".data

theorem c7_table_like_iff_witness :
    (5 * (((pySplitlines tableBoundaryText).filter (fun l => pyStripL l ≠ [])).filter
            (fun l => (pyStripL l).length < 40)).length =
        3 * ((pySplitlines tableBoundaryText).filter (fun l => pyStripL l ≠ [])).length) ∧
    is_table_like tableBoundaryText = false :=
  ⟨by decide, (c7_table_like_iff tableBoundaryText).2 (by decide)⟩

-- -----------------------------
-- C10: normalizer totality / safe defaults
-- -----------------------------

/-- C10: the normalizer is total on well-formed Documents and its degenerate
inputs take safe defaults: the boilerplate frequency computation returns the
empty set on zero pages (the division is guarded by `max(len,1)`), a text
with no non-blank lines is never flagged table-like, empty page texts pass
through every stage unchanged, and a document with no pages normalizes to
itself with empty full text. -/
theorem c10_normalizer_safety :
    (∀ (tn bn : Nat) (θ : ℚ), detect_repeated_lines [] tn bn θ = []) ∧
    (∀ t : PyStr, (pySplitlines t).filter (fun l => pyStripL l ≠ []) = [] →
      is_table_like t = false) ∧
    (normalize_whitespace [] = [] ∧ fix_hyphenation [] = [] ∧
      (∀ s : List PyStr, remove_lines [] s = []) ∧ is_table_like [] = false ∧
      reflow_lines [] = []) ∧
    (∀ (d : Document) (θ : ℚ) (tn bn : Nat) (dt : Bool), d.pages = [] →
      normalize_document d θ tn bn dt = { d with pages := [], full_text := [] }) := by
  refine ⟨?_, ?_, ⟨rfl, rfl, fun s => rfl, rfl, rfl⟩, ?_⟩
  · intro tn bn θ; rfl
  · intro t h
    simp only [is_table_like]
    rw [if_pos h]
  · intro d θ tn bn dt hp
    simp [normalize_document, hp, joinNonEmptyPages, List.intercalate]

theorem c10_normalizer_safety_witness :
    ((pySplitlines " \n\t".data).filter (fun l => pyStripL l ≠ []) = [] ∧
      is_table_like " \n\t".data = false) ∧
    ((⟨[], [], [], [], [], "old".data⟩ : Document).pages = [] ∧
      normalize_document ⟨[], [], [], [], [], "old".data⟩ (6/10 : ℚ) 2 2 false =
        ⟨[], [], [], [], [], []⟩) :=
  ⟨⟨by decide, c10_normalizer_safety.2.1 _ (by decide)⟩,
   ⟨rfl, c10_normalizer_safety.2.2.2 _ (6/10 : ℚ) 2 2 false rfl⟩⟩

-- -----------------------------
-- C6: boilerplate detection
-- -----------------------------

/-- The candidate selection as the claim words it: the first `topN` and the
last `bottomN` non-blank stripped lines of each page (so `bottomN = 0`
contributes nothing from the bottom). -/
def claimCandidateLines (pages : List Page) (top_n bottom_n : Nat) : List PyStr :=
  pages.flatMap (fun p =>
    let lines := nonBlankStrippedLines p.text
    lines.take top_n ++ lines.drop (lines.length - bottom_n))

/-- The removal set as the claim words it, over `claimCandidateLines`. -/
def claimBoilerplate (pages : List Page) (top_n bottom_n : Nat) (threshold : ℚ) :
    List PyStr :=
  let cand := claimCandidateLines pages top_n bottom_n
  let total_pages : Nat := max pages.length 1
  cand.dedup.filter
    (fun line => threshold ≤ ((cand.count line : ℚ) / (total_pages : ℚ)))

/-- C6 as stated is false at `bottomN = 0`: Python's `lines[-0:]` is the
whole list, so the code's candidate multiset contains every line of the
page, while the claim's candidate multiset (first 0 plus last 0 lines) is
empty and would make the removal set empty. -/
theorem c6_counterexample :
    detect_repeated_lines [⟨1, "aaa\nbbb\nccc".data, none⟩] 0 0 (6/10 : ℚ) =
      ["aaa".data, "bbb".data, "ccc".data] ∧
    claimBoilerplate [⟨1, "aaa\nbbb\nccc".data, none⟩] 0 0 (6/10 : ℚ) = [] := by
  with_unfolding_all decide

def confidentialPages : List Page := [
  ⟨1, "CONFIDENTIAL\nbody one a\nmore a\nfooter a".data, none⟩,
  ⟨2, "CONFIDENTIAL\nbody one b\nmore b\nfooter b".data, none⟩,
  ⟨3, "CONFIDENTIAL\nbody one c\nmore c\nfooter c".data, none⟩,
  ⟨4, "CONFIDENTIAL\nbody one d\nmore d\nfooter d".data, none⟩,
  ⟨5, "CONFIDENTIAL\nbody one e\nmore e\nfooter e".data, none⟩]

def confidentialPages4 : List Page := [
  ⟨1, "CONFIDENTIAL\nbody one a\nmore a\nfooter a".data, none⟩,
  ⟨2, "CONFIDENTIAL\nbody one b\nmore b\nfooter b".data, none⟩,
  ⟨3, "CONFIDENTIAL\nbody one c\nmore c\nfooter c".data, none⟩,
  ⟨4, "CONFIDENTIAL\nbody one d\nmore d\nfooter d".data, none⟩,
  ⟨5, "no marker here\nbody one e\nmore e\nfooter e".data, none⟩]

/-- C6 (amended): for `bottomN ≥ 1` (and any `topN ≥ 0`) the detector's
candidate multiset is each page's first `topN` plus last `bottomN` non-blank
stripped lines and the removal set is exactly the distinct candidates whose
count over the page total reaches the threshold; for `bottomN = 0` the code
instead takes all of a page's lines as bottom candidates (`lines[-0:]`).
With 5 pages all starting with `CONFIDENTIAL`, `topN = 2`, threshold 0.6,
the line is detected and removed from all 5 pages; with threshold 1.0 and
only 4 of 5 pages carrying it, it is detected nowhere and retained. -/
theorem c6_boilerplate_amended :
    (∀ (pages : List Page) (tn bn : Nat) (θ : ℚ), 1 ≤ bn →
      detect_repeated_lines pages tn bn θ = claimBoilerplate pages tn bn θ) ∧
    (detect_repeated_lines confidentialPages 2 2 (6/10 : ℚ) = ["CONFIDENTIAL".data] ∧
      confidentialPages.map
        (fun p => remove_lines p.text (detect_repeated_lines confidentialPages 2 2 (6/10 : ℚ))) =
        ["body one a\nmore a\nfooter a".data, "body one b\nmore b\nfooter b".data,
         "body one c\nmore c\nfooter c".data, "body one d\nmore d\nfooter d".data,
         "body one e\nmore e\nfooter e".data]) ∧
    (detect_repeated_lines confidentialPages4 2 2 (1 : ℚ) = [] ∧
      confidentialPages4.map
        (fun p => remove_lines p.text (detect_repeated_lines confidentialPages4 2 2 (1 : ℚ))) =
        confidentialPages4.map (fun p => p.text)) := by
  refine ⟨?_, by with_unfolding_all decide, by with_unfolding_all decide⟩
  intro pages tn bn θ hbn
  have hbn0 : ¬ bn = 0 := by omega
  unfold detect_repeated_lines claimBoilerplate claimCandidateLines
  simp only [pySliceLast, if_neg hbn0]

theorem c6_boilerplate_amended_witness :
    1 ≤ 1 ∧
    detect_repeated_lines [⟨1, "x\ny".data, none⟩] 1 1 (1/2 : ℚ) =
      claimBoilerplate [⟨1, "x\ny".data, none⟩] 1 1 (1/2 : ℚ) :=
  ⟨by decide, c6_boilerplate_amended.1 [⟨1, "x\ny".data, none⟩] 1 1 (1/2 : ℚ) (by decide)⟩

-- -----------------------------
-- C9: hyphenation repair
-- -----------------------------

/-- A remaining hyphenation-break site: a word character, a hyphen, a
newline and a word character in immediate succession. -/
def containsHyphenBreak : PyStr → Bool
  | c1 :: c2 :: c3 :: c4 :: rest =>
    (isWordChar c1 && c2 == '-' && c3 == '\n' && isWordChar c4) ||
      containsHyphenBreak (c2 :: c3 :: c4 :: rest)
  | _ => false

/-- C9 as stated is false: `re.sub` consumes its matches left to right, so
the second word run of a collapsed match cannot begin another match.  In
`"a-\nb-\nc"` the run `b` is consumed by the first collapse and the output
`"ab-\nc"` still contains a word-hyphen-newline-word site that the claim
says is always collapsed. -/
theorem c9_counterexample :
    fix_hyphenation "a-\nb-\nc".data = "ab-\nc".data ∧
    containsHyphenBreak (fix_hyphenation "a-\nb-\nc".data) = true := by decide

theorem head?_mem {l : PyStr} {a : Char} (h : l.head? = some a) : a ∈ l := by
  cases l with
  | nil => simp at h
  | cons c cs => simp at h; simp [h]

theorem fixHyph_id_of_no_newline : ∀ (n : Nat) (l : PyStr), l.length ≤ n →
    '\n' ∉ l → fix_hyphenation l = l := by
  intro n
  induction n using Nat.strong_induction_on with
  | _ n ih =>
    intro l hl hnl
    match l with
    | [] => rfl
    | c :: cs =>
      have hnlcs : '\n' ∉ cs := fun h => hnl (List.mem_cons_of_mem _ h)
      simp only [List.length_cons] at hl
      by_cases hw : isWordChar c
      · have hcond : ¬ ((cs.dropWhile isWordChar).head? = some '-' ∧
            (cs.dropWhile isWordChar).tail.head? = some '\n' ∧
            (cs.dropWhile isWordChar).tail.tail.takeWhile isWordChar ≠ []) := by
          rintro ⟨-, h2, -⟩
          have hm : '\n' ∈ (cs.dropWhile isWordChar).tail := head?_mem h2
          have hm2 : '\n' ∈ cs.dropWhile isWordChar := (List.tail_sublist _).subset hm
          exact hnlcs ((List.dropWhile_sublist _).subset hm2)
        rw [fix_hyphenation_word_nomatch cs hw hcond]
        have hlen := (List.dropWhile_sublist (l := cs) isWordChar).length_le
        rw [ih (cs.dropWhile isWordChar).length (by omega) _
            (le_refl _) (fun h => hnlcs ((List.dropWhile_sublist _).subset h))]
        simp only [List.cons_append, List.takeWhile_append_dropWhile]
      · rw [fix_hyphenation_nonword cs (by simp [hw])]
        rw [ih cs.length (by omega) cs (le_refl _) hnlcs]

/-- C9 (amended): hyphenation repair never fires without a line break
(texts with no newline are unchanged, so mid-line hyphens like
`"long-term"` are preserved), and it collapses matches left to right
without overlap: a leading word run followed by hyphen, newline and a word
run is concatenated, after which scanning resumes past the second run, so
a run consumed by one collapse cannot begin another. -/
theorem c9_hyphenation_amended :
    (∀ l : PyStr, '\n' ∉ l → fix_hyphenation l = l) ∧
    (∀ (w1 w2 rest : PyStr), w1 ≠ [] → (∀ c ∈ w1, isWordChar c = true) →
      w2 ≠ [] → (∀ c ∈ w2, isWordChar c = true) →
      (∀ c, rest.head? = some c → isWordChar c = false) →
      fix_hyphenation (w1 ++ '-' :: '\n' :: (w2 ++ rest)) =
        w1 ++ w2 ++ fix_hyphenation rest) := by
  constructor
  · intro l hnl
    exact fixHyph_id_of_no_newline l.length l (le_refl _) hnl
  · rintro ⟨⟩ w2 rest hne hw1 hw2ne hw2 hrest
    · exact absurd rfl hne
    rename_i c w1'
    have hcw : isWordChar c = true := hw1 c (by simp)
    have hw1' : ∀ a ∈ w1', isWordChar a = true := fun a ha => hw1 a (by simp [ha])
    have hcs : (w1' ++ '-' :: '\n' :: (w2 ++ rest)).takeWhile isWordChar = w1' := by
      rw [List.takeWhile_append_of_pos hw1']
      rw [List.takeWhile_cons_of_neg (by decide)]
      simp
    have hds : (w1' ++ '-' :: '\n' :: (w2 ++ rest)).dropWhile isWordChar =
        '-' :: '\n' :: (w2 ++ rest) := by
      rw [List.dropWhile_append_of_pos hw1']
      rw [List.dropWhile_cons_of_neg (by decide)]
    have htw2 : (w2 ++ rest).takeWhile isWordChar = w2 := by
      rw [List.takeWhile_append_of_pos hw2]
      have : rest.takeWhile isWordChar = [] := by
        cases hr : rest with
        | nil => rfl
        | cons r rs =>
          rw [List.takeWhile_cons_of_neg]
          simp [hrest r (by rw [hr]; rfl)]
      rw [this]
      simp
    have hdw2 : (w2 ++ rest).dropWhile isWordChar = rest := by
      rw [List.dropWhile_append_of_pos hw2]
      cases hr : rest with
      | nil => rfl
      | cons r rs =>
        rw [List.dropWhile_cons_of_neg]
        simp [hrest r (by rw [hr]; rfl)]
    have hcond : ((w1' ++ '-' :: '\n' :: (w2 ++ rest)).dropWhile isWordChar).head? = some '-' ∧
        ((w1' ++ '-' :: '\n' :: (w2 ++ rest)).dropWhile isWordChar).tail.head? = some '\n' ∧
        ((w1' ++ '-' :: '\n' :: (w2 ++ rest)).dropWhile isWordChar).tail.tail.takeWhile
          isWordChar ≠ [] := by
      rw [hds]
      refine ⟨rfl, rfl, ?_⟩
      simp only [List.tail_cons]
      rw [htw2]
      exact hw2ne
    have := fix_hyphenation_word_match (w1' ++ '-' :: '\n' :: (w2 ++ rest)) hcw hcond
    rw [List.cons_append, this, hds]
    simp only [List.tail_cons]
    rw [htw2, hdw2, hcs]

theorem c9_hyphenation_amended_witness :
    fix_hyphenation "coopeti-\ntion".data = "coopetition".data ∧
    fix_hyphenation "long-term".data = "long-term".data := by
  constructor
  · have h := c9_hyphenation_amended.2 "coopeti".data "tion".data []
      (by decide) (by decide) (by decide) (by decide) (by simp)
    have he : "coopeti".data ++ '-' :: '\n' :: ("tion".data ++ []) = "coopeti-\ntion".data := by
      decide
    rw [he] at h
    rw [h]
    decide
  · exact c9_hyphenation_amended.1 "long-term".data (by decide)

-- -----------------------------
-- C3: loader resolution and error taxonomy
-- -----------------------------

/-- A processed file for the requested id exists: the processed directory
exists and holds `docId.md` or `docId.txt`. -/
abbrev hasProcessed (fs : FS) : Prop :=
  fs.processedDirExists = true ∧ (fs.processedMd = true ∨ fs.processedTxt = true)

theorem load_document_processed_md (fs : FS) (doc_id : PyStr)
    (h1 : fs.processedDirExists = true) (h2 : fs.processedMd = true) :
    load_document fs doc_id = loadResolved fs doc_id ".md".data "manual".data := by
  obtain ⟨pde, pmd, ptxt, rawExts, rp, tc, pp⟩ := fs
  subst h1; subst h2
  cases ptxt <;> rfl

theorem load_document_processed_txt (fs : FS) (doc_id : PyStr)
    (h1 : fs.processedDirExists = true) (h2 : fs.processedMd = false)
    (h3 : fs.processedTxt = true) :
    load_document fs doc_id = loadResolved fs doc_id ".txt".data "manual".data := by
  obtain ⟨pde, pmd, ptxt, rawExts, rp, tc, pp⟩ := fs
  subst h1; subst h2; subst h3
  rfl

theorem load_document_no_processed (fs : FS) (doc_id : PyStr)
    (hnp : ¬ hasProcessed fs) :
    load_document fs doc_id =
      (match fs.rawExts with
       | [] => .error .NotFound
       | [ext] => loadResolved fs doc_id ext "auto".data
       | _ => .error .AmbiguousSource) := by
  obtain ⟨pde, pmd, ptxt, rawExts, rp, tc, pp⟩ := fs
  simp only [hasProcessed, not_and, not_or] at hnp
  cases pde
  · rfl
  · obtain ⟨hm, ht⟩ := hnp rfl
    have hm2 : pmd = false := by simpa using hm
    have ht2 : ptxt = false := by simpa using ht
    subst hm2; subst ht2
    rfl

theorem loadResolved_supported (fs : FS) (doc_id ext q : PyStr)
    (h : SUPPORTED_EXTS.contains (lowerStr ext) = true) :
    ∃ d, loadResolved fs doc_id ext q = .ok d ∧ d.source_quality = q ∧
      d.file_type = (lowerStr ext).dropWhile (fun c => c = '.') := by
  unfold loadResolved
  rw [if_neg (by simpa using h)]
  exact ⟨_, rfl, rfl, rfl⟩

theorem loadResolved_unsupported (fs : FS) (doc_id ext q : PyStr)
    (h : SUPPORTED_EXTS.contains (lowerStr ext) = false) :
    loadResolved fs doc_id ext q = .error .UnsupportedType := by
  unfold loadResolved
  rw [if_pos (show ¬ SUPPORTED_EXTS.contains (lowerStr ext) = true from by
    intro hc; rw [h] at hc; exact absurd hc (by simp))]

/-- C3: `load_document` fails with `NotFound` exactly when there is neither
a processed `docId.md`/`docId.txt` nor any raw `docId.*`; with
`AmbiguousSource` exactly when there is no processed file and at least two
raw matches; with `UnsupportedType` exactly when the resolved file (then
necessarily the single raw match) has an extension outside
`{.pdf, .txt, .md}` after lowercasing.  In all other cases it returns a
Document: a processed `.md` wins over a processed `.txt`, processed loads
are marked `manual`, raw loads `auto`. -/
theorem c3_load_resolution (fs : FS) (doc_id : PyStr) :
    (load_document fs doc_id = .error .NotFound ↔
      ¬ hasProcessed fs ∧ fs.rawExts = []) ∧
    (load_document fs doc_id = .error .AmbiguousSource ↔
      ¬ hasProcessed fs ∧ 2 ≤ fs.rawExts.length) ∧
    (load_document fs doc_id = .error .UnsupportedType ↔
      ¬ hasProcessed fs ∧
        ∃ e, fs.rawExts = [e] ∧ SUPPORTED_EXTS.contains (lowerStr e) = false) ∧
    (fs.processedDirExists = true → fs.processedMd = true →
      ∃ d, load_document fs doc_id = .ok d ∧ d.file_type = "md".data ∧
        d.source_quality = "manual".data) ∧
    (fs.processedDirExists = true → fs.processedMd = false → fs.processedTxt = true →
      ∃ d, load_document fs doc_id = .ok d ∧ d.file_type = "txt".data ∧
        d.source_quality = "manual".data) ∧
    (¬ hasProcessed fs → ∀ e, fs.rawExts = [e] →
      SUPPORTED_EXTS.contains (lowerStr e) = true →
      ∃ d, load_document fs doc_id = .ok d ∧ d.source_quality = "auto".data) := by
  by_cases hp : hasProcessed fs
  · -- a processed file resolves; the load never errors
    have hok : ∃ d, load_document fs doc_id = .ok d ∧ d.source_quality = "manual".data ∧
        (d.file_type = "md".data ∨ d.file_type = "txt".data) ∧
        (fs.processedMd = true → d.file_type = "md".data) ∧
        (fs.processedMd = false → d.file_type = "txt".data) := by
      obtain ⟨h1, h23⟩ := hp
      by_cases h2 : fs.processedMd = true
      · obtain ⟨d, hd, hq, hft⟩ :=
          loadResolved_supported fs doc_id ".md".data "manual".data (by decide)
        refine ⟨d, ?_, hq, ?_, ?_, ?_⟩
        · rw [load_document_processed_md fs doc_id h1 h2]; exact hd
        · left; rw [hft]; decide
        · intro _; rw [hft]; decide
        · intro hmm; rw [hmm] at h2; exact absurd h2 (by simp)
      · have h2f : fs.processedMd = false := by simpa using h2
        have h3 : fs.processedTxt = true := by
          rcases h23 with h | h
          · exact absurd h h2
          · exact h
        obtain ⟨d, hd, hq, hft⟩ :=
          loadResolved_supported fs doc_id ".txt".data "manual".data (by decide)
        refine ⟨d, ?_, hq, ?_, ?_, ?_⟩
        · rw [load_document_processed_txt fs doc_id h1 h2f h3]; exact hd
        · right; rw [hft]; decide
        · intro hmm; rw [hmm] at h2f; simp at h2f
        · intro _; rw [hft]; decide
    obtain ⟨d, hd, hq, -, hmd, htxt⟩ := hok
    refine ⟨?_, ?_, ?_, ?_, ?_, ?_⟩
    · rw [hd]; simp [hp]
    · rw [hd]; simp [hp]
    · rw [hd]; simp [hp]
    · intro _ h2; exact ⟨d, hd, hmd h2, hq⟩
    · intro _ h2 _; exact ⟨d, hd, htxt h2, hq⟩
    · intro hnp; exact absurd hp hnp
  · -- no processed file: raw resolution
    have hun := load_document_no_processed fs doc_id hp
    match hre : fs.rawExts with
    | [] =>
      rw [hre] at hun
      have hun2 : load_document fs doc_id = .error .NotFound := hun
      refine ⟨?_, ?_, ?_, ?_, ?_, ?_⟩
      · rw [hun2]; simp [hp, hre]
      · rw [hun2]; simp [hre]
      · rw [hun2]; simp [hre]
      · intro h1 h2; exact absurd ⟨h1, Or.inl h2⟩ hp
      · intro h1 _ h3; exact absurd ⟨h1, Or.inr h3⟩ hp
      · intro _ e he
        simp at he
    | [e] =>
      rw [hre] at hun
      by_cases hsup : SUPPORTED_EXTS.contains (lowerStr e) = true
      · obtain ⟨d, hd, hq, -⟩ := loadResolved_supported fs doc_id e "auto".data hsup
        have hun2 : load_document fs doc_id = loadResolved fs doc_id e "auto".data := hun
        rw [hd] at hun2
        refine ⟨?_, ?_, ?_, ?_, ?_, ?_⟩
        · rw [hun2]; simp [hre]
        · rw [hun2]; simp [hre]
        · rw [hun2]
          constructor
          · intro hmm; exact absurd hmm (by simp)
          · rintro ⟨-, e2, he2, hsup2⟩
            have : e2 = e := by simpa using he2.symm
            subst this
            rw [hsup] at hsup2
            exact absurd hsup2 (by simp)
        · intro h1 h2; exact absurd ⟨h1, Or.inl h2⟩ hp
        · intro h1 _ h3; exact absurd ⟨h1, Or.inr h3⟩ hp
        · intro _ e2 he2 _
          have : e2 = e := by simpa using he2.symm
          subst this
          exact ⟨d, hun2, hq⟩
      · have hsupf : SUPPORTED_EXTS.contains (lowerStr e) = false := by
          simpa using hsup
        have hun2 : load_document fs doc_id = loadResolved fs doc_id e "auto".data := hun
        rw [loadResolved_unsupported fs doc_id e "auto".data hsupf] at hun2
        refine ⟨?_, ?_, ?_, ?_, ?_, ?_⟩
        · rw [hun2]; simp [hre]
        · rw [hun2]; simp [hre]
        · rw [hun2]
          constructor
          · intro _; exact ⟨hp, e, rfl, hsupf⟩
          · intro _; trivial
        · intro h1 h2; exact absurd ⟨h1, Or.inl h2⟩ hp
        · intro h1 _ h3; exact absurd ⟨h1, Or.inr h3⟩ hp
        · intro _ e2 he2 hsup2
          have : e2 = e := by simpa using he2.symm
          subst this
          rw [hsupf] at hsup2
          exact absurd hsup2 (by simp)
    | e1 :: e2 :: rest =>
      rw [hre] at hun
      have hun2 : load_document fs doc_id = .error .AmbiguousSource := hun
      refine ⟨?_, ?_, ?_, ?_, ?_, ?_⟩
      · rw [hun2]; simp [hre]
      · rw [hun2]; simp [hp, hre]
      · rw [hun2]; simp [hre]
      · intro h1 h2; exact absurd ⟨h1, Or.inl h2⟩ hp
      · intro h1 _ h3; exact absurd ⟨h1, Or.inr h3⟩ hp
      · intro _ e he
        simp at he

def fsC3 : FS := ⟨true, true, false, [], "path".data, "hello".data, []⟩

theorem c3_load_resolution_witness :
    (fsC3.processedDirExists = true ∧ fsC3.processedMd = true) ∧
    ∃ d, load_document fsC3 "doc".data = .ok d ∧ d.file_type = "md".data ∧
      d.source_quality = "manual".data :=
  ⟨⟨rfl, rfl⟩, (c3_load_resolution fsC3 "doc".data).2.2.2.1 rfl rfl⟩

-- -----------------------------
-- C1: the full_text invariant
-- -----------------------------

theorem loadResolved_ok_shape {fs : FS} {doc_id ext q : PyStr} {d : Document}
    (h : loadResolved fs doc_id ext q = .ok d) :
    lowerStr ext ∈ SUPPORTED_EXTS ∧
    d.pages = (if lowerStr ext = ".pdf".data then _load_pdf fs.pdfPages
               else _load_text fs.textContent 1000) ∧
    d.full_text = List.intercalate ['\n', '\n'] (d.pages.map (fun p => p.text)) := by
  unfold loadResolved at h
  by_cases hc : ¬ SUPPORTED_EXTS.contains (lowerStr ext) = true
  · rw [if_pos hc] at h; exact absurd h (by simp)
  · rw [if_neg hc] at h
    have hm : lowerStr ext ∈ SUPPORTED_EXTS := by
      have := not_not.mp hc
      simpa using this
    have hd : d = { doc_id := doc_id
                    source_path := fs.resolvedPath
                    file_type := (lowerStr ext).dropWhile (fun c => c = '.')
                    source_quality := q
                    pages := if lowerStr ext = ".pdf".data then _load_pdf fs.pdfPages
                             else _load_text fs.textContent 1000
                    full_text := List.intercalate ['\n', '\n']
                      (((if lowerStr ext = ".pdf".data then _load_pdf fs.pdfPages
                         else _load_text fs.textContent 1000)).map (fun p => p.text)) } := by
      injection h with h
      exact h.symm
    subst hd
    exact ⟨hm, rfl, rfl⟩

theorem load_document_ok_resolved {fs : FS} {doc_id : PyStr} {d : Document}
    (h : load_document fs doc_id = .ok d) :
    ∃ ext q, loadResolved fs doc_id ext q = .ok d := by
  by_cases hp : hasProcessed fs
  · by_cases h2 : fs.processedMd = true
    · refine ⟨".md".data, "manual".data, ?_⟩
      rw [← load_document_processed_md fs doc_id hp.1 h2]
      exact h
    · have h2f : fs.processedMd = false := by simpa using h2
      have h3 : fs.processedTxt = true := by
        rcases hp.2 with hh | hh
        · exact absurd hh h2
        · exact hh
      refine ⟨".txt".data, "manual".data, ?_⟩
      rw [← load_document_processed_txt fs doc_id hp.1 h2f h3]
      exact h
  · have hun := load_document_no_processed fs doc_id hp
    match hre : fs.rawExts with
    | [] =>
      rw [hre] at hun
      have hun2 : load_document fs doc_id = .error .NotFound := hun
      rw [hun2] at h
      exact absurd h (by simp)
    | [e] =>
      rw [hre] at hun
      have hun2 : load_document fs doc_id = loadResolved fs doc_id e "auto".data := hun
      exact ⟨e, "auto".data, by rw [← hun2]; exact h⟩
    | e1 :: e2 :: rest =>
      rw [hre] at hun
      have hun2 : load_document fs doc_id = .error .AmbiguousSource := hun
      rw [hun2] at h
      exact absurd h (by simp)

theorem pdfGo_nonblank : ∀ (i : Nat) (ts : List PyStr) (p : Page),
    p ∈ pdfGo i ts → pyStripL p.text ≠ [] := by
  intro i ts
  induction ts generalizing i with
  | nil => intro p hp; simp [pdfGo] at hp
  | cons t ts ih =>
    intro p hp
    simp only [pdfGo] at hp
    rcases List.mem_append.mp hp with h | h
    · by_cases hs : pyStripL t = []
      · rw [if_pos hs] at h; simp at h
      · rw [if_neg hs] at h
        simp at h
        subst h
        simp only
        rw [pyStripL_idem]
        exact hs
    · exact ih (i + 1) p h

theorem markerPages_nonblank : ∀ (fuel : Nat) (n : Nat) (rest : PyStr),
    rest.length ≤ fuel → ∀ p ∈ markerPages n rest, pyStripL p.text ≠ [] := by
  intro fuel
  induction fuel using Nat.strong_induction_on with
  | _ fuel ih =>
    intro n rest hfl p hp
    rw [markerPages_step] at hp
    rcases hfm : findMarker rest with _ | ⟨pre, n2, rest2⟩
    · rw [hfm] at hp
      simp only at hp
      by_cases hs : pyStripL rest = []
      · rw [if_pos hs] at hp; simp at hp
      · rw [if_neg hs] at hp
        simp at hp
        subst hp
        simp only
        rw [pyStripL_idem]
        exact hs
    · rw [hfm] at hp
      simp only at hp
      have hlt := findMarker_some_length rest pre n2 rest2 hfm
      rcases List.mem_append.mp hp with h | h
      · by_cases hs : pyStripL pre = []
        · rw [if_pos hs] at h; simp at h
        · rw [if_neg hs] at h
          simp at h
          subst h
          simp only
          rw [pyStripL_idem]
          exact hs
      · exact ih rest2.length (by omega) n2 rest2 (le_refl _) p h

theorem load_text_marker {content : PyStr} {pre : PyStr} {n : Nat} {rest : PyStr}
    (h : findMarker content = some (pre, n, rest)) (bs : Nat) :
    _load_text content bs = markerPages n rest := by
  unfold _load_text
  rw [h]

/-- C1 (amended): `load_document` assembles `full_text` as the blank-line
join of ALL page texts; this equals the claimed join over the non-empty
pages whenever every page text is non-empty after stripping, which always
holds for PDF pages and for marker-split pages (but a block-fallback page
whose whole buffer is whitespace has empty text, making the two joins
differ).  `normalize_document` recomputes `full_text` as the join over the
non-empty pages. -/
theorem c1_full_text_amended :
    (∀ (fs : FS) (doc_id : PyStr) (d : Document), load_document fs doc_id = .ok d →
      d.full_text = List.intercalate ['\n', '\n'] (d.pages.map (fun p => p.text))) ∧
    (∀ (fs : FS) (doc_id : PyStr) (d : Document), load_document fs doc_id = .ok d →
      (∀ p ∈ d.pages, pyStripL p.text ≠ []) →
      d.full_text = joinNonEmptyPages d.pages) ∧
    (∀ (fs : FS) (doc_id : PyStr) (d : Document), load_document fs doc_id = .ok d →
      (d.file_type = "pdf".data ∨ findMarker fs.textContent ≠ none) →
      ∀ p ∈ d.pages, pyStripL p.text ≠ []) ∧
    (∀ (doc : Document) (θ : ℚ) (tn bn : Nat) (dt : Bool),
      (normalize_document doc θ tn bn dt).full_text =
        joinNonEmptyPages (normalize_document doc θ tn bn dt).pages) := by
  have hall : ∀ (fs : FS) (doc_id : PyStr) (d : Document), load_document fs doc_id = .ok d →
      d.full_text = List.intercalate ['\n', '\n'] (d.pages.map (fun p => p.text)) := by
    intro fs doc_id d h
    obtain ⟨ext, q, hr⟩ := load_document_ok_resolved h
    exact (loadResolved_ok_shape hr).2.2
  refine ⟨hall, ?_, ?_, ?_⟩
  · intro fs doc_id d h hne
    rw [hall fs doc_id d h]
    unfold joinNonEmptyPages
    rw [List.filter_eq_self.mpr]
    intro p hp
    simpa using hne p hp
  · intro fs doc_id d h hcase p hp
    obtain ⟨ext, q, hr⟩ := load_document_ok_resolved h
    obtain ⟨hsup, hpg, -⟩ := loadResolved_ok_shape hr
    by_cases hpdf : lowerStr ext = ".pdf".data
    · rw [if_pos hpdf] at hpg
      rw [hpg] at hp
      exact pdfGo_nonblank 1 fs.pdfPages p hp
    · rw [if_neg hpdf] at hpg
      have hmk : findMarker fs.textContent ≠ none := by
        rcases hcase with hft | hm
        · -- a non-pdf extension cannot produce file_type "pdf"
          exfalso
          have hfteq : d.file_type = (lowerStr ext).dropWhile (fun c => c = '.') := by
            unfold loadResolved at hr
            by_cases hc : ¬ SUPPORTED_EXTS.contains (lowerStr ext) = true
            · rw [if_pos hc] at hr; exact absurd hr (by simp)
            · rw [if_neg hc] at hr
              injection hr with hr
              rw [← hr]
          rcases (by simpa [SUPPORTED_EXTS] using hsup :
              lowerStr ext = ".pdf".data ∨ lowerStr ext = ".txt".data ∨
              lowerStr ext = ".md".data) with hh | hh | hh
          · exact hpdf hh
          · rw [hh] at hfteq
            rw [hfteq] at hft
            simp at hft
          · rw [hh] at hfteq
            rw [hfteq] at hft
            simp at hft
        · exact hm
      rcases hfm : findMarker fs.textContent with _ | ⟨⟨pre, n, rest⟩⟩
      · exact absurd hfm hmk
      · rw [hpg, load_text_marker hfm 1000] at hp
        exact markerPages_nonblank rest.length n rest (le_refl _) p hp
  · intro doc θ tn bn dt
    rfl

def fsC1 : FS :=
  ⟨false, false, false, [".txt".data], [], List.replicate 999 ' ' ++ "\nx".data, []⟩

def docC1 : Document :=
  ⟨"doc".data, [], "txt".data, "auto".data,
   [⟨1, [], none⟩, ⟨2, "x".data, none⟩], "\n\nx".data⟩

set_option maxRecDepth 100000 in
/-- C1 as stated is false: loading a text file with no markers whose first
1000 characters are whitespace produces a block page whose stripped text is
empty; `load_document` joins ALL page texts, so `full_text` is `"\n\nx"`
while the claimed join over non-empty pages is `"x"`. -/
theorem c1_counterexample :
    load_document fsC1 "doc".data = .ok docC1 ∧
    docC1.full_text ≠ joinNonEmptyPages docC1.pages := by
  constructor
  · decide
  · decide

theorem c1_full_text_amended_witness :
    load_document fsC3 "doc".data =
      .ok { doc_id := "doc".data, source_path := "path".data, file_type := "md".data,
            source_quality := "manual".data, pages := [⟨1, "hello".data, none⟩],
            full_text := "hello".data } ∧
    ("hello".data : PyStr) =
      List.intercalate ['\n', '\n'] ([(⟨1, "hello".data, none⟩ : Page)].map (fun p => p.text)) :=
  ⟨by decide,
   by
    have h := c1_full_text_amended.1 fsC3 "doc".data
      { doc_id := "doc".data, source_path := "path".data, file_type := "md".data,
        source_quality := "manual".data, pages := [⟨1, "hello".data, none⟩],
        full_text := "hello".data } (by decide)
    simpa using h⟩

-- -----------------------------
-- C4: marker splitting
-- -----------------------------

theorem matchCI_decomp : ∀ (ps r r2 : PyStr), matchCI ps r = some r2 → ∃ t, r = t ++ r2 := by
  intro ps
  induction ps with
  | nil => intro r r2 h; simp [matchCI] at h; exact ⟨[], by simp [h]⟩
  | cons p ps ih =>
    intro r r2 h
    cases r with
    | nil => simp [matchCI] at h
    | cons d ds =>
      simp only [matchCI] at h
      by_cases hd : d.toLower = p.toLower
      · rw [if_pos hd] at h
        obtain ⟨t, ht⟩ := ih ds r2 h
        exact ⟨d :: t, by simp [ht]⟩
      · rw [if_neg hd] at h; simp at h

theorem dropWhile_decomp (p : Char → Bool) (l : PyStr) :
    ∃ t, l = t ++ l.dropWhile p :=
  ⟨l.takeWhile p, (List.takeWhile_append_dropWhile p l).symm⟩

theorem matchMarkerAt_decomp {l : PyStr} {n : Nat} {rest : PyStr}
    (h : matchMarkerAt l = some (n, rest)) : ∃ mid, l = mid ++ rest ∧ mid ≠ [] := by
  match l with
  | [] => simp [matchMarkerAt] at h
  | [c] => simp [matchMarkerAt] at h
  | c :: d :: r =>
    by_cases hc : c = '[' ∧ d = '['
    · obtain ⟨hc1, hc2⟩ := hc
      subst hc1; subst hc2
      simp only [matchMarkerAt] at h
      rcases hm : matchCI ['P', 'A', 'G', 'E'] (r.dropWhile pyIsSpace) with _ | r2
      · rw [hm] at h; simp at h
      · rw [hm] at h
        simp only at h
        split at h
        · simp at h
        · split at h
          · simp at h
          · revert h
            split
            · intro h
              rename_i r6 heq
              injection h with h'
              injection h' with h1 h2
              subst h2
              -- reconstruct r as prefix ++ remainder
              obtain ⟨t1, ht1⟩ := dropWhile_decomp pyIsSpace r
              obtain ⟨t2, ht2⟩ := matchCI_decomp _ _ _ hm
              obtain ⟨t3, ht3⟩ := dropWhile_decomp pyIsSpace r2
              obtain ⟨t4, ht4⟩ := dropWhile_decomp Char.isDigit (r2.dropWhile pyIsSpace)
              obtain ⟨t5, ht5⟩ :=
                dropWhile_decomp pyIsSpace ((r2.dropWhile pyIsSpace).dropWhile Char.isDigit)
              have hr2 : r2 = t3 ++ (t4 ++ (t5 ++ (']' :: ']' :: r6))) := by
                rw [← heq, ← ht5, ← ht4, ← ht3]
              have hrr : r = t1 ++ (t2 ++ (t3 ++ (t4 ++ (t5 ++ (']' :: ']' :: r6))))) := by
                rw [← hr2, ← ht2, ← ht1]
              refine ⟨'[' :: '[' :: (t1 ++ (t2 ++ (t3 ++ (t4 ++ (t5 ++ [']', ']']))))),
                ?_, by simp⟩
              rw [hrr]
              simp
            · intro h; simp at h
    · have hnone : matchMarkerAt (c :: d :: r) = none := by
        simp only [matchMarkerAt]
        split
        · rename_i heq
          injection heq with e1 e2
          injection e2 with e2 e3
          exact absurd ⟨e1, e2⟩ hc
        · rfl
      rw [hnone] at h; simp at h

theorem findMarker_decomp : ∀ (l pre : PyStr) (n : Nat) (rest : PyStr),
    findMarker l = some (pre, n, rest) → ∃ mid, l = pre ++ mid ++ rest ∧ mid ≠ [] := by
  intro l
  induction l with
  | nil => intro pre n rest h; simp [findMarker] at h
  | cons c cs ih =>
    intro pre n rest h
    rcases hm : matchMarkerAt (c :: cs) with _ | ⟨n2, r2⟩
    · rw [findMarker, hm] at h
      rcases hf : findMarker cs with _ | ⟨pre2, n3, r3⟩
      · rw [hf] at h; simp at h
      · rw [hf] at h
        simp only [Option.some.injEq, Prod.mk.injEq] at h
        obtain ⟨hpre, hn, hr⟩ := h
        obtain ⟨mid, hmid, hne⟩ := ih pre2 n3 r3 hf
        subst hn; subst hr
        rw [← hpre]
        exact ⟨mid, by rw [hmid]; simp, hne⟩
    · rw [findMarker, hm] at h
      simp only [Option.some.injEq, Prod.mk.injEq] at h
      obtain ⟨hpre, hn, hr⟩ := h
      obtain ⟨mid, hmid, hne⟩ := matchMarkerAt_decomp hm
      subst hn; subst hr
      rw [← hpre]
      exact ⟨mid, by simpa using hmid, hne⟩

/-- `list(re.finditer(...))` for the marker pattern: match spans
`(start, end, captured page number)` in match order, each search resuming
at the previous match's end (fuel `l.length + 1` always suffices). -/
def scanMarkersF : Nat → PyStr → Nat → List (Nat × Nat × Nat)
  | 0, _, _ => []
  | fuel + 1, l, base =>
    match findMarker l with
    | none => []
    | some (pre, n, rest) =>
      (base + pre.length, base + (l.length - rest.length), n) ::
        scanMarkersF fuel rest (base + (l.length - rest.length))

def scanMarkers (l : PyStr) (base : Nat) : List (Nat × Nat × Nat) :=
  scanMarkersF (l.length + 1) l base

theorem scanMarkersF_congr : ∀ (fuel : Nat) (l : PyStr) (base : Nat),
    l.length + 1 ≤ fuel → scanMarkersF fuel l base = scanMarkers l base := by
  intro fuel
  induction fuel using Nat.strong_induction_on with
  | _ fuel ih =>
    intro l base hl
    match fuel with
    | 0 => omega
    | fuel + 1 =>
      have e1 : scanMarkersF (fuel + 1) l base =
          (match findMarker l with
           | none => []
           | some (pre, n, rest) =>
             (base + pre.length, base + (l.length - rest.length), n) ::
               scanMarkersF fuel rest (base + (l.length - rest.length))) := rfl
      have e2 : scanMarkers l base =
          (match findMarker l with
           | none => []
           | some (pre, n, rest) =>
             (base + pre.length, base + (l.length - rest.length), n) ::
               scanMarkersF l.length rest (base + (l.length - rest.length))) := rfl
      rw [e1, e2]
      rcases hfm : findMarker l with _ | ⟨pre, n, rest⟩
      · rfl
      · have hlt := findMarker_some_length l pre n rest hfm
        simp only
        rw [ih fuel (by omega) rest _ (by omega), ih l.length (by omega) rest _ (by omega)]

theorem scanMarkers_step (l : PyStr) (base : Nat) :
    scanMarkers l base =
      (match findMarker l with
       | none => []
       | some (pre, n, rest) =>
         (base + pre.length, base + (l.length - rest.length), n) ::
           scanMarkers rest (base + (l.length - rest.length))) := by
  have e2 : scanMarkers l base =
      (match findMarker l with
       | none => []
       | some (pre, n, rest) =>
         (base + pre.length, base + (l.length - rest.length), n) ::
           scanMarkersF l.length rest (base + (l.length - rest.length))) := rfl
  rw [e2]
  rcases hfm : findMarker l with _ | ⟨pre, n, rest⟩
  · rfl
  · have hlt := findMarker_some_length l pre n rest hfm
    simp only
    rw [scanMarkersF_congr l.length rest _ (by omega)]

/-- The claim's reading of the marker strategy: for each match in order the
page number is the captured integer and the page text is the stripped slice
of the original content from the end of that match to the start of the next
(or the end of content); empty-after-strip pages are dropped, and content
before the first match never appears. -/
def pagesFromMatches (content : PyStr) : List (Nat × Nat × Nat) → List Page
  | [] => []
  | (_, e, n) :: ms =>
    let nxt := match ms with
      | [] => content.length
      | (s2, _, _) :: _ => s2
    (if pyStripL ((content.drop e).take (nxt - e)) = [] then []
     else [⟨n, pyStripL ((content.drop e).take (nxt - e)), none⟩]) ++
      pagesFromMatches content ms

def markerSpecPages (content : PyStr) : List Page :=
  pagesFromMatches content (scanMarkers content 0)

theorem markerPages_eq_pagesFromMatches : ∀ (fuel : Nat) (rest : PyStr),
    rest.length ≤ fuel → ∀ (s e n : Nat) (content : PyStr), content.drop e = rest →
      markerPages n rest = pagesFromMatches content ((s, e, n) :: scanMarkers rest e) := by
  intro fuel
  induction fuel using Nat.strong_induction_on with
  | _ fuel ih =>
    intro rest hfl s e n content hdrop
    rw [markerPages_step, scanMarkers_step]
    rcases hfm : findMarker rest with _ | ⟨pre, n2, rest2⟩
    · simp only [pagesFromMatches]
      have hlen : (content.drop e).length = content.length - e := by simp
      have htake : (content.drop e).take (content.length - e) = content.drop e :=
        List.take_of_length_le (by omega)
      rw [htake, hdrop]
      simp
    · obtain ⟨mid, hmid, hmidne⟩ := findMarker_decomp rest pre n2 rest2 hfm
      have hlt := findMarker_some_length rest pre n2 rest2 hfm
      have hlens : rest.length = pre.length + mid.length + rest2.length := by
        rw [hmid]; simp; omega
      simp only [pagesFromMatches]
      have hspan : (content.drop e).take (e + pre.length - e) = pre := by
        have : e + pre.length - e = pre.length := by omega
        rw [this, hdrop]
        have : rest = pre ++ (mid ++ rest2) := by rw [hmid]; simp
        rw [this, List.take_left]
      rw [hspan]
      congr 1
      have hdrop2 : content.drop (e + (rest.length - rest2.length)) = rest2 := by
        have h1 : content.drop (e + (rest.length - rest2.length)) =
            (content.drop e).drop (rest.length - rest2.length) := by
          rw [List.drop_drop]
        rw [h1, hdrop]
        have h2 : rest.length - rest2.length = (pre ++ mid).length := by
          simp only [List.length_append]
          omega
        have h3 : rest = (pre ++ mid) ++ rest2 := by rw [hmid]
        rw [h2, h3, List.drop_left]
      exact ih rest2.length (by omega) rest2 (le_refl _) (e + pre.length)
        (e + (rest.length - rest2.length)) n2 content hdrop2

/-- C4: whenever at least one page marker matches, `_load_text` returns, in
match order, one page per match whose number is the captured integer and
whose text is the stripped slice of the content from the end of that match
to the start of the next match (or the end of content), discarding content
before the first match and dropping pages that are empty after stripping
(`markerSpecPages` is that specification, written over match positions);
in particular `"junk[[PAGE 3]]alpha[[PAGE 5]]beta"` gives exactly the pages
`(3, "alpha")` and `(5, "beta")`. -/
theorem c4_marker_splitter :
    (∀ (content : PyStr) (bs : Nat), scanMarkers content 0 ≠ [] →
      _load_text content bs = markerSpecPages content) ∧
    _load_text "junk[[PAGE 3]]alpha[[PAGE 5]]beta".data 1000 =
      [⟨3, "alpha".data, none⟩, ⟨5, "beta".data, none⟩] := by
  constructor
  · intro content bs h
    rcases hfm : findMarker content with _ | ⟨pre, n, rest⟩
    · rw [scanMarkers_step, hfm] at h
      exact absurd rfl h
    · have hload := load_text_marker hfm bs
      obtain ⟨mid, hmid, hmidne⟩ := findMarker_decomp content pre n rest hfm
      have hlens : content.length = pre.length + mid.length + rest.length := by
        rw [hmid]; simp; omega
      have hdrop : content.drop (0 + (content.length - rest.length)) = rest := by
        have h2 : 0 + (content.length - rest.length) = (pre ++ mid).length := by
          simp only [Nat.zero_add, List.length_append]
          omega
        have h3 : content = (pre ++ mid) ++ rest := by rw [hmid]
        rw [h2, h3, List.drop_left]
      rw [hload, markerSpecPages, scanMarkers_step, hfm]
      exact markerPages_eq_pagesFromMatches rest.length rest (le_refl _) (0 + pre.length)
        (0 + (content.length - rest.length)) n content hdrop
  · decide

theorem c4_marker_splitter_witness :
    scanMarkers "junk[[PAGE 3]]alpha[[PAGE 5]]beta".data 0 ≠ [] ∧
    _load_text "junk[[PAGE 3]]alpha[[PAGE 5]]beta".data 1000 =
      markerSpecPages "junk[[PAGE 3]]alpha[[PAGE 5]]beta".data :=
  ⟨by decide, c4_marker_splitter.1 "junk[[PAGE 3]]alpha[[PAGE 5]]beta".data 1000 (by decide)⟩

-- -----------------------------
-- C5: block fallback
-- -----------------------------

/-- The buffer contents contributed by a run of whole lines: each line with
its trailing newline, concatenated. -/
def joinLN (g : List PyStr) : PyStr := (g.map (fun l => l ++ ['\n'])).flatten

/-- Sequential page numbering of a list of block texts. -/
def numberBlocks (page : Nat) : List PyStr → List Page
  | [] => []
  | t :: ts => ⟨page, t, none⟩ :: numberBlocks (page + 1) ts

theorem joinLN_nil : joinLN [] = [] := rfl

theorem joinLN_cons (l : PyStr) (g : List PyStr) :
    joinLN (l :: g) = (l ++ ['\n']) ++ joinLN g := by
  simp [joinLN]

/-- Peel the first block off the fallback loop: either every remaining line
fits in the buffer, or a minimal non-empty group of lines closes the
current page. -/
theorem fbGo_peel (bs : Nat) : ∀ (lines : List PyStr) (cur : PyStr) (page : Nat),
    cur.length < bs →
    ((cur ++ joinLN lines).length < bs ∧
      fbGo bs lines cur page =
        (if pyStripL (cur ++ joinLN lines) = [] then []
         else [⟨page, pyStripL (cur ++ joinLN lines), none⟩])) ∨
    (∃ g rest, lines = g ++ rest ∧ g ≠ [] ∧
      bs ≤ (cur ++ joinLN g).length ∧ (cur ++ joinLN g.dropLast).length < bs ∧
      fbGo bs lines cur page =
        ⟨page, pyStripL (cur ++ joinLN g), none⟩ :: fbGo bs rest [] (page + 1)) := by
  intro lines
  induction lines with
  | nil =>
    intro cur page hcur
    left
    rw [joinLN_nil, List.append_nil]
    exact ⟨hcur, rfl⟩
  | cons line rest ih =>
    intro cur page hcur
    by_cases hclose : bs ≤ (cur ++ line ++ ['\n']).length
    · right
      refine ⟨[line], rest, rfl, by simp, ?_, ?_, ?_⟩
      · rw [joinLN_cons, joinLN_nil, List.append_nil, ← List.append_assoc]
        exact hclose
      · simpa [joinLN_nil] using hcur
      · show fbGo bs (line :: rest) cur page = _
        rw [fbGo]
        simp only [if_pos hclose]
        rw [joinLN_cons, joinLN_nil, List.append_nil, ← List.append_assoc]
    · have hlt : (cur ++ line ++ ['\n']).length < bs := by omega
      rcases ih (cur ++ line ++ ['\n']) page hlt with ⟨h1, h2⟩ | ⟨g, rest2, hsplit, hgne, hge, hlt2, heq⟩
      · left
        constructor
        · rw [joinLN_cons]
          rw [show cur ++ ((line ++ ['\n']) ++ joinLN rest) =
              (cur ++ line ++ ['\n']) ++ joinLN rest by simp]
          exact h1
        · show fbGo bs (line :: rest) cur page = _
          rw [fbGo]
          simp only [if_neg hclose]
          rw [h2]
          rw [show cur ++ joinLN (line :: rest) = (cur ++ line ++ ['\n']) ++ joinLN rest by
            rw [joinLN_cons]; simp]
      · right
        refine ⟨line :: g, rest2, by rw [hsplit]; rfl, by simp, ?_, ?_, ?_⟩
        · rw [show cur ++ joinLN (line :: g) = (cur ++ line ++ ['\n']) ++ joinLN g by
            rw [joinLN_cons]; simp]
          exact hge
        · rw [List.dropLast_cons_of_ne_nil hgne]
          rw [show cur ++ joinLN (line :: g.dropLast) =
              (cur ++ line ++ ['\n']) ++ joinLN g.dropLast by rw [joinLN_cons]; simp]
          exact hlt2
        · show fbGo bs (line :: rest) cur page = _
          rw [fbGo]
          simp only [if_neg hclose]
          rw [heq]
          rw [show cur ++ joinLN (line :: g) = (cur ++ line ++ ['\n']) ++ joinLN g by
            rw [joinLN_cons]; simp]

theorem fbGo_blocks (bs : Nat) (hbs : 0 < bs) : ∀ (N : Nat) (lines : List PyStr),
    lines.length ≤ N → ∀ page : Nat,
    ∃ (gs : List (List PyStr)) (rem : List PyStr),
      gs.flatten ++ rem = lines ∧
      (∀ g ∈ gs, g ≠ [] ∧ bs ≤ (joinLN g).length ∧ (joinLN g.dropLast).length < bs) ∧
      (joinLN rem).length < bs ∧
      fbGo bs lines [] page =
        numberBlocks page (gs.map (fun g => pyStripL (joinLN g))) ++
          (if pyStripL (joinLN rem) = [] then []
           else [⟨page + gs.length, pyStripL (joinLN rem), none⟩]) := by
  intro N
  induction N using Nat.strong_induction_on with
  | _ N ih =>
    intro lines hlen page
    rcases fbGo_peel bs lines [] page (by simpa using hbs) with
      ⟨h1, h2⟩ | ⟨g, rest, hsplit, hgne, hge, hlt2, heq⟩
    · refine ⟨[], lines, by simp, by simp, by simpa using h1, ?_⟩
      rw [h2]
      simp [numberBlocks]
    · have hgpos : 0 < g.length := List.length_pos.mpr hgne
      have hrest : rest.length < lines.length := by
        rw [hsplit]
        simp
        omega
      obtain ⟨gs, rem, ihsplit, ihconds, ihrem, iheq⟩ :=
        ih rest.length (by omega) rest (le_refl _) (page + 1)
      refine ⟨g :: gs, rem, ?_, ?_, ihrem, ?_⟩
      · rw [List.flatten_cons, List.append_assoc, ihsplit, hsplit]
      · intro g2 hg2
        rcases List.mem_cons.mp hg2 with hh | hh
        · subst hh
          exact ⟨hgne, by simpa using hge, by simpa using hlt2⟩
        · exact ihconds g2 hh
      · rw [heq, iheq]
        simp only [List.map_cons, numberBlocks, List.length_cons, List.cons_append,
          List.nil_append]
        rw [show page + (gs.length + 1) = page + 1 + gs.length by omega]

/-- C5: with no page markers, `_load_text` partitions the split lines into
consecutive whole-line groups: each closed group's buffer (lines joined with
their trailing newlines) first reaches `block_size` exactly at its last
line (so a page never splits mid-line and exceeds the threshold by at most
that last line plus its newline), closed groups get sequential page numbers
starting at 1, and the non-empty-after-strip remainder becomes a final
page. -/
theorem c5_block_fallback (content : PyStr) (bs : Nat) (hbs : 0 < bs)
    (hnm : findMarker content = none) :
    ∃ (gs : List (List PyStr)) (rem : List PyStr),
      gs.flatten ++ rem = pySplitlines content ∧
      (∀ g ∈ gs, g ≠ [] ∧ bs ≤ (joinLN g).length ∧ (joinLN g.dropLast).length < bs) ∧
      (joinLN rem).length < bs ∧
      _load_text content bs =
        numberBlocks 1 (gs.map (fun g => pyStripL (joinLN g))) ++
          (if pyStripL (joinLN rem) = [] then []
           else [⟨1 + gs.length, pyStripL (joinLN rem), none⟩]) := by
  have hload : _load_text content bs = fbGo bs (pySplitlines content) [] 1 := by
    unfold _load_text
    rw [hnm]
  obtain ⟨gs, rem, hsplit, hconds, hrem, heq⟩ :=
    fbGo_blocks bs hbs (pySplitlines content).length (pySplitlines content) (le_refl _) 1
  refine ⟨gs, rem, hsplit, hconds, hrem, ?_⟩
  rw [hload, heq]

theorem c5_block_fallback_witness :
    0 < 10 ∧ findMarker "aaaa\nbbbb\ncccc\ndddd".data = none ∧
    (∃ (gs : List (List PyStr)) (rem : List PyStr),
      gs.flatten ++ rem = pySplitlines "aaaa\nbbbb\ncccc\ndddd".data ∧
      (∀ g ∈ gs, g ≠ [] ∧ 10 ≤ (joinLN g).length ∧ (joinLN g.dropLast).length < 10) ∧
      (joinLN rem).length < 10 ∧
      _load_text "aaaa\nbbbb\ncccc\ndddd".data 10 =
        numberBlocks 1 (gs.map (fun g => pyStripL (joinLN g))) ++
          (if pyStripL (joinLN rem) = [] then []
           else [⟨1 + gs.length, pyStripL (joinLN rem), none⟩])) :=
  ⟨by decide, by decide,
    c5_block_fallback "aaaa\nbbbb\ncccc\ndddd".data 10 (by decide) (by decide)⟩

-- -----------------------------
-- C8: reflow idempotence
-- -----------------------------

theorem breakLine_none_decomp : ∀ (l line : PyStr), breakLine l = (line, none) →
    l = line ∧ (∀ c ∈ line, isLineBreakChar c = false) := by
  intro l
  induction l with
  | nil =>
    intro line h
    simp only [breakLine] at h
    have : line = [] := by injection h with h1 h2; exact h1.symm
    subst this
    exact ⟨rfl, by simp⟩
  | cons c cs ih =>
    intro line h
    by_cases h1 : c = '\r' ∧ cs.head? = some '\n'
    · rw [breakLine, if_pos h1] at h
      exact absurd (congrArg Prod.snd h) (by simp)
    · by_cases h2 : isLineBreakChar c
      · rw [breakLine, if_neg h1, if_pos h2] at h
        exact absurd (congrArg Prod.snd h) (by simp)
      · rw [breakLine, if_neg h1, if_neg h2] at h
        rcases h3 : breakLine cs with ⟨ln, o⟩
        rw [h3] at h
        cases o with
        | some r2 => exact absurd (congrArg Prod.snd h) (by simp)
        | none =>
          have hline : line = c :: ln := by
            have := congrArg Prod.fst h
            simpa using this.symm
          obtain ⟨hcs, hmem⟩ := ih ln h3
          subst hline
          refine ⟨by rw [hcs], ?_⟩
          intro x hx
          rcases List.mem_cons.mp hx with hh | hh
          · subst hh; simpa using h2
          · exact hmem x hh

theorem breakLine_some_decomp : ∀ (l line rest : PyStr), breakLine l = (line, some rest) →
    ∃ br, l = line ++ br ++ rest ∧ (∀ c ∈ br, isLineBreakChar c = true) ∧
      (∀ c ∈ line, isLineBreakChar c = false) := by
  intro l
  induction l with
  | nil => intro line rest h; simp [breakLine] at h
  | cons c cs ih =>
    intro line rest h
    by_cases h1 : c = '\r' ∧ cs.head? = some '\n'
    · rw [breakLine, if_pos h1] at h
      obtain ⟨hc, hh⟩ := h1
      subst hc
      have hline : line = [] := by
        have := congrArg Prod.fst h; simpa using this.symm
      have hrest : rest = cs.tail := by
        have := congrArg Prod.snd h; simpa using this.symm
      subst hline
      cases cs with
      | nil => simp at hh
      | cons d ds =>
        have hd : d = '\n' := by simpa using hh
        subst hd
        subst hrest
        exact ⟨['\r', '\n'], by simp, by decide, by simp⟩
    · by_cases h2 : isLineBreakChar c
      · rw [breakLine, if_neg h1, if_pos h2] at h
        have hline : line = [] := by
          have := congrArg Prod.fst h; simpa using this.symm
        have hrest : rest = cs := by
          have := congrArg Prod.snd h; simpa using this.symm
        subst hline; subst hrest
        refine ⟨[c], by simp, ?_, by simp⟩
        intro x hx
        have : x = c := by simpa using hx
        subst this
        exact h2
      · rw [breakLine, if_neg h1, if_neg h2] at h
        rcases h3 : breakLine cs with ⟨ln, o⟩
        rw [h3] at h
        cases o with
        | none => exact absurd (congrArg Prod.snd h) (by simp)
        | some r2 =>
          have hline : line = c :: ln := by
            have := congrArg Prod.fst h; simpa using this.symm
          have hrest : rest = r2 := by
            have := congrArg Prod.snd h; simpa using this.symm
          subst hline; subst hrest
          obtain ⟨br, hcs, hbr, hln⟩ := ih ln rest h3
          refine ⟨br, by rw [hcs]; simp, hbr, ?_⟩
          intro x hx
          rcases List.mem_cons.mp hx with hh | hh
          · subst hh; simpa using h2
          · exact hln x hh

theorem breakLine_no_lb {l : PyStr} (h : ∀ c ∈ l, isLineBreakChar c = false) :
    breakLine l = (l, none) := by
  induction l with
  | nil => rfl
  | cons c cs ih =>
    have hc : isLineBreakChar c = false := h c (by simp)
    have h1 : ¬ (c = '\r' ∧ cs.head? = some '\n') := by
      rintro ⟨hcr, -⟩
      subst hcr
      simp [isLineBreakChar] at hc
    rw [breakLine, if_neg h1, if_neg (by simp [hc])]
    rw [ih (fun x hx => h x (by simp [hx]))]

theorem pySplitlines_no_lb {l : PyStr} (hne : l ≠ [])
    (h : ∀ c ∈ l, isLineBreakChar c = false) : pySplitlines l = [l] := by
  cases l with
  | nil => exact absurd rfl hne
  | cons c cs =>
    rw [pySplitlines_step, breakLine_no_lb h]

theorem mem_pySplitlines : ∀ (fuel : Nat) (l : PyStr), l.length ≤ fuel →
    ∀ c ∈ l, isLineBreakChar c = false → ∃ line ∈ pySplitlines l, c ∈ line := by
  intro fuel
  induction fuel using Nat.strong_induction_on with
  | _ fuel ih =>
    intro l hl c hc hnlb
    cases l with
    | nil => simp at hc
    | cons a cs =>
      rw [pySplitlines_step]
      rcases hb : breakLine (a :: cs) with ⟨line, o⟩
      cases o with
      | none =>
        obtain ⟨hline, -⟩ := breakLine_none_decomp _ _ hb
        exact ⟨line, by simp, by rw [← hline]; exact hc⟩
      | some rest =>
        obtain ⟨br, hdec, hbr, -⟩ := breakLine_some_decomp _ _ _ hb
        have hlen := breakLine_some_length _ _ _ hb
        rw [hdec] at hc
        rcases List.mem_append.mp hc with hh | hh
        · rcases List.mem_append.mp hh with hh2 | hh2
          · exact ⟨line, by simp, hh2⟩
          · rw [hbr c hh2] at hnlb
            exact absurd hnlb (by simp)
        · simp only [List.length_cons] at hl hlen
          obtain ⟨line2, hl2, hc2⟩ := ih rest.length (by omega) rest (le_refl _) c hh hnlb
          exact ⟨line2, by simp [hl2], hc2⟩

theorem intercalate_cons₂ (s : PyStr) (x y : PyStr) (zs : List PyStr) :
    List.intercalate s (x :: y :: zs) = x ++ s ++ List.intercalate s (y :: zs) := by
  simp [List.intercalate, List.intersperse]

theorem intercalate_single (s x : PyStr) : List.intercalate s [x] = x := by
  simp [List.intercalate]

theorem mem_intercalate {s : PyStr} {c : Char} : ∀ {L : List PyStr} {line : PyStr},
    line ∈ L → c ∈ line → c ∈ List.intercalate s L := by
  intro L
  induction L with
  | nil => intro line h; simp at h
  | cons x xs ih =>
    intro line hline hc
    cases xs with
    | nil =>
      have : line = x := by simpa using hline
      subst this
      rw [intercalate_single]
      exact hc
    | cons y zs =>
      rw [intercalate_cons₂]
      rcases List.mem_cons.mp hline with hh | hh
      · subst hh; simp [hc]
      · have := ih hh hc
        simp [this]

/-- The no-two-adjacent-whitespace relation of a collapsed text. -/
abbrev noAdjWS (a b : Char) : Prop := ¬ (pyIsSpace a = true ∧ pyIsSpace b = true)

theorem collapseAux_space_eq_space : ∀ (b : Bool) (l : PyStr) (c : Char),
    c ∈ collapseAux b l → pyIsSpace c = true → c = ' ' := by
  intro b l
  induction l generalizing b with
  | nil => intro c hc; simp [collapseAux] at hc
  | cons x xs ih =>
    intro c hc hws
    simp only [collapseAux] at hc
    by_cases hx : pyIsSpace x
    · rw [if_pos hx] at hc
      cases b with
      | true => exact ih true c (by simpa using hc) hws
      | false =>
        simp at hc
        rcases hc with hh | hh
        · exact hh
        · exact ih true c hh hws
    · rw [if_neg hx] at hc
      rcases List.mem_cons.mp hc with hh | hh
      · subst hh; rw [hws] at hx; exact absurd rfl hx
      · exact ih false c hh hws

theorem collapseAux_head_true : ∀ (l : PyStr) (c : Char),
    (collapseAux true l).head? = some c → pyIsSpace c = false := by
  intro l
  induction l with
  | nil => intro c hc; simp [collapseAux] at hc
  | cons x xs ih =>
    intro c hc
    simp only [collapseAux] at hc
    by_cases hx : pyIsSpace x
    · rw [if_pos hx] at hc
      simp at hc
      exact ih c (by simpa using hc)
    · rw [if_neg hx] at hc
      have : x = c := by simpa using hc
      subst this
      simpa using hx

theorem collapseAux_chain : ∀ (b : Bool) (l : PyStr),
    List.Chain' noAdjWS (collapseAux b l) := by
  intro b l
  induction l generalizing b with
  | nil => simp [collapseAux]
  | cons x xs ih =>
    simp only [collapseAux]
    by_cases hx : pyIsSpace x
    · rw [if_pos hx]
      cases b with
      | true => exact ih true
      | false =>
        simp only [Bool.false_eq_true, if_false]
        rw [List.chain'_cons']
        refine ⟨?_, ih true⟩
        intro y hy
        have := collapseAux_head_true xs y hy
        intro hand
        rw [this] at hand
        exact absurd hand.2 (by simp)
    · rw [if_neg hx]
      rw [List.chain'_cons']
      refine ⟨?_, ih false⟩
      intro y hy
      intro hand
      rw [hand.1] at hx
      exact hx rfl

theorem collapseAux_mem : ∀ (b : Bool) (l : PyStr) (c : Char),
    c ∈ l → pyIsSpace c = false → c ∈ collapseAux b l := by
  intro b l
  induction l generalizing b with
  | nil => intro c hc; simp at hc
  | cons x xs ih =>
    intro c hc hns
    simp only [collapseAux]
    rcases List.mem_cons.mp hc with hh | hh
    · subst hh
      rw [if_neg (by simp [hns])]
      simp
    · by_cases hx : pyIsSpace x
      · rw [if_pos hx]
        cases b with
        | true => exact ih true c hh hns
        | false =>
          simp only [Bool.false_eq_true, if_false]
          exact List.mem_cons_of_mem _ (ih true c hh hns)
      · rw [if_neg hx]
        exact List.mem_cons_of_mem _ (ih false c hh hns)

theorem collapseAux_id : ∀ (l : PyStr), (∀ c ∈ l, pyIsSpace c = true → c = ' ') →
    List.Chain' noAdjWS l →
    (collapseAux false l = l ∧
      ((∀ c, l.head? = some c → pyIsSpace c = false) → collapseAux true l = l)) := by
  intro l
  induction l with
  | nil => exact fun _ _ => ⟨rfl, fun _ => rfl⟩
  | cons x xs ih =>
    intro hall hchain
    have hxall : ∀ c ∈ xs, pyIsSpace c = true → c = ' ' :=
      fun c hc => hall c (by simp [hc])
    have hchain2 : List.Chain' noAdjWS xs := (List.chain'_cons'.mp hchain).2
    obtain ⟨ihf, iht⟩ := ih hxall hchain2
    by_cases hx : pyIsSpace x
    · have hxsp : x = ' ' := hall x (by simp) hx
      have hhead : ∀ c, xs.head? = some c → pyIsSpace c = false := by
        intro c hc
        have hr := (List.chain'_cons'.mp hchain).1 c hc
        by_cases hcw : pyIsSpace c
        · exact absurd ⟨hx, hcw⟩ hr
        · simpa using hcw
      constructor
      · simp only [collapseAux, if_pos hx, Bool.false_eq_true, if_false]
        rw [iht hhead, hxsp]
      · intro hh
        have := hh x rfl
        rw [hx] at this
        exact absurd this (by simp)
    · constructor
      · simp only [collapseAux, if_neg hx]
        rw [ihf]
      · intro _
        simp only [collapseAux, if_neg hx]
        rw [ihf]

/-- Normal form of a reflowed paragraph: non-empty, the only whitespace is
single interior spaces, and no leading or trailing whitespace. -/
def NormalPara (q : PyStr) : Prop :=
  q ≠ [] ∧ (∀ c ∈ q, pyIsSpace c = true → c = ' ') ∧
  List.Chain' noAdjWS q ∧
  (∀ c, q.head? = some c → pyIsSpace c = false) ∧
  (∀ c, q.getLast? = some c → pyIsSpace c = false)

/-- The per-paragraph body of `reflow_lines`. -/
def reflowPara (p : PyStr) : PyStr :=
  pyStripL (collapseWS (List.intercalate [' '] (pySplitlines p)))

theorem reflow_lines_eq (t : PyStr) :
    reflow_lines t =
      List.intercalate ['\n', '\n']
        ((((splitNN t).map pyStripL).filter (fun p => p ≠ [])).map reflowPara) := rfl

theorem pyStripL_infix (l : PyStr) : ∃ pre suf, l = pre ++ (pyStripL l ++ suf) := by
  obtain ⟨suf, hsuf⟩ :=
    (List.rdropWhile_prefix pyIsSpace (l.dropWhile pyIsSpace) : pyStripL l <+: _)
  refine ⟨l.takeWhile pyIsSpace, suf, ?_⟩
  conv_lhs => rw [← List.takeWhile_append_dropWhile (p := pyIsSpace) (l := l)]
  rw [← hsuf, pyStripL_eq_rdrop]

theorem chain'_of_infix {R : Char → Char → Prop} {pre mid suf : PyStr}
    (h : List.Chain' R (pre ++ (mid ++ suf))) : List.Chain' R mid :=
  ((List.chain'_append.mp ((List.chain'_append.mp h).2.1))).1

theorem normalPara_reflowPara {p : PyStr} {c0 : Char} (hc0 : c0 ∈ p)
    (hns : pyIsSpace c0 = false) : NormalPara (reflowPara p) := by
  have hnlb : isLineBreakChar c0 = false := by
    by_cases hlb : isLineBreakChar c0
    · rw [pyIsSpace_of_lineBreak hlb] at hns
      exact absurd hns (by simp)
    · simpa using hlb
  obtain ⟨line, hline, hcl⟩ := mem_pySplitlines p.length p (le_refl _) c0 hc0 hnlb
  have hcj : c0 ∈ List.intercalate [' '] (pySplitlines p) := mem_intercalate hline hcl
  have hck : c0 ∈ collapseWS (List.intercalate [' '] (pySplitlines p)) :=
    collapseAux_mem false _ c0 hcj hns
  refine ⟨pyStripL_ne_nil_of_mem hck hns, ?_, ?_, ?_, ?_⟩
  · intro c hc hws
    exact collapseAux_space_eq_space false _ c (mem_of_mem_pyStripL hc) hws
  · obtain ⟨pre, suf, hdec⟩ := pyStripL_infix (collapseWS (List.intercalate [' '] (pySplitlines p)))
    have hch : List.Chain' noAdjWS (collapseWS (List.intercalate [' '] (pySplitlines p))) :=
      collapseAux_chain false _
    rw [hdec] at hch
    exact chain'_of_infix hch
  · intro c hc
    cases hq : reflowPara p with
    | nil => rw [hq] at hc; simp at hc
    | cons d ds =>
      have : d = c := by rw [hq] at hc; simpa using hc
      subst this
      exact pyStripL_head_not_space hq
  · intro c hc
    exact pyStripL_getLast_not_space hc

theorem stripL_id_of_normal {q : PyStr} (h : NormalPara q) : pyStripL q = q := by
  obtain ⟨hne, -, -, hhead, hlast⟩ := h
  have h1 : q.dropWhile pyIsSpace = q := by
    apply dropWhile_eq_self_of_head
    intro c t hct
    exact hhead c (by rw [hct]; rfl)
  rw [pyStripL_eq_rdrop, h1, List.rdropWhile_eq_self_iff]
  intro hq
  have := hlast (q.getLast hq) (List.getLast?_eq_getLast q hq)
  simp [this]

theorem no_newline_of_normal {q : PyStr} (h : NormalPara q) : '\n' ∉ q := by
  intro hmem
  have := h.2.1 '\n' hmem (by decide)
  exact absurd this (by decide)

theorem no_lb_of_normal {q : PyStr} (h : NormalPara q) :
    ∀ c ∈ q, isLineBreakChar c = false := by
  intro c hc
  by_cases hlb : isLineBreakChar c
  · have hws := pyIsSpace_of_lineBreak hlb
    have := h.2.1 c hc hws
    subst this
    exact absurd hlb (by decide)
  · simpa using hlb

theorem reflowPara_id_of_normal {q : PyStr} (h : NormalPara q) : reflowPara q = q := by
  unfold reflowPara
  rw [pySplitlines_no_lb h.1 (no_lb_of_normal h), intercalate_single]
  unfold collapseWS
  rw [(collapseAux_id q h.2.1 h.2.2.1).1]
  exact stripL_id_of_normal h

theorem splitNN_no_nl : ∀ (l : PyStr), '\n' ∉ l → splitNN l = [l] := by
  intro l
  induction l with
  | nil => intro _; rfl
  | cons c cs ih =>
    intro h
    have hc : c ≠ '\n' := fun hh => h (by simp [hh])
    have hcs : '\n' ∉ cs := fun hh => h (by simp [hh])
    rw [splitNN_step, if_neg (by rintro ⟨hh, -⟩; exact hc hh), ih hcs]

theorem splitNN_append_sep : ∀ (q r : PyStr), '\n' ∉ q →
    splitNN (q ++ '\n' :: '\n' :: r) = q :: splitNN r := by
  intro q
  induction q with
  | nil =>
    intro r _
    rw [List.nil_append, splitNN_step, if_pos ⟨rfl, rfl⟩]
    rfl
  | cons c q' ih =>
    intro r h
    have hc : c ≠ '\n' := fun hh => h (by simp [hh])
    have hq' : '\n' ∉ q' := fun hh => h (by simp [hh])
    rw [List.cons_append, splitNN_step, if_neg (by rintro ⟨hh, -⟩; exact hc hh), ih r hq']

theorem splitNN_intercalate : ∀ (qs : List PyStr), qs ≠ [] → (∀ q ∈ qs, '\n' ∉ q) →
    splitNN (List.intercalate ['\n', '\n'] qs) = qs := by
  intro qs
  induction qs with
  | nil => intro h; exact absurd rfl h
  | cons q qs ih =>
    intro _ hnl
    cases qs with
    | nil =>
      rw [intercalate_single]
      exact splitNN_no_nl q (hnl q (by simp))
    | cons q2 rest =>
      rw [intercalate_cons₂, List.append_assoc]
      rw [show (['\n', '\n'] : PyStr) ++ List.intercalate ['\n', '\n'] (q2 :: rest) =
          '\n' :: '\n' :: List.intercalate ['\n', '\n'] (q2 :: rest) from rfl]
      rw [splitNN_append_sep q _ (hnl q (by simp))]
      rw [ih (by simp) (fun x hx => hnl x (by simp [hx]))]

theorem map_id_of_mem {α : Type} (f : α → α) : ∀ (l : List α),
    (∀ x ∈ l, f x = x) → l.map f = l := by
  intro l
  induction l with
  | nil => intro _; rfl
  | cons x xs ih =>
    intro h
    rw [List.map_cons, h x (by simp), ih (fun y hy => h y (by simp [hy]))]

/-- C8: reflow is idempotent — reflowing already-reflowed text is a no-op. -/
theorem c8_reflow_idempotent (t : PyStr) :
    reflow_lines (reflow_lines t) = reflow_lines t := by
  have hnorm : ∀ q ∈ (((splitNN t).map pyStripL).filter (fun p => p ≠ [])).map reflowPara,
      NormalPara q := by
    intro q hqmem
    obtain ⟨p, hpmem, hq⟩ := List.mem_map.mp hqmem
    have hpf := List.of_mem_filter hpmem
    have hpne : p ≠ [] := by simpa using hpf
    have hpmem2 : p ∈ (splitNN t).map pyStripL := List.mem_of_mem_filter hpmem
    obtain ⟨chunk, -, hpstrip⟩ := List.mem_map.mp hpmem2
    cases hp : p with
    | nil => exact absurd hp hpne
    | cons c t' =>
      have hcns : pyIsSpace c = false := by
        apply pyStripL_head_not_space (l := chunk)
        rw [hpstrip, hp]
      rw [← hq]
      exact normalPara_reflowPara (by rw [hp]; simp) hcns
  rw [reflow_lines_eq t]
  generalize hqs : (((splitNN t).map pyStripL).filter (fun p => p ≠ [])).map reflowPara = qs at hnorm ⊢
  cases qs with
  | nil => rfl
  | cons q0 qrest =>
    rw [reflow_lines_eq]
    rw [splitNN_intercalate _ (by simp) (fun q hq => no_newline_of_normal (hnorm q hq))]
    rw [map_id_of_mem pyStripL _ (fun q hq => stripL_id_of_normal (hnorm q hq))]
    rw [List.filter_eq_self.mpr (fun q hq => by simpa using (hnorm q hq).1)]
    rw [map_id_of_mem reflowPara _ (fun q hq => reflowPara_id_of_normal (hnorm q hq))]

-- -----------------------------
-- C2: heap lemmas
-- -----------------------------

lemma updEach_cons (h : Heap) (r : Nat) (rs : List Nat) (f : Page → Page) :
    updEach h (r :: rs) f = updEach (h.set r (f (h.getD r default))) rs f := rfl

lemma updEach_length (h : Heap) (rs : List Nat) (f : Page → Page) :
    (updEach h rs f).length = h.length := by
  induction rs generalizing h with
  | nil => rfl
  | cons r rs ih => rw [updEach_cons, ih]; simp

lemma updEach_getElem?_not_mem (h : Heap) (rs : List Nat) (f : Page → Page)
    (r : Nat) (hr : r ∉ rs) : (updEach h rs f)[r]? = h[r]? := by
  induction rs generalizing h with
  | nil => rfl
  | cons a rs ih =>
    rw [updEach_cons, ih _ (fun hm => hr (List.mem_cons_of_mem _ hm))]
    exact List.getElem?_set_ne (fun he => hr (by simp [← he]))

lemma updEach_map_getD (h : Heap) (rs : List Nat) (f : Page → Page)
    (hnd : rs.Nodup) (hlt : ∀ r ∈ rs, r < h.length) :
    rs.map (fun r => (updEach h rs f).getD r default)
      = rs.map (fun r => f (h.getD r default)) := by
  induction rs generalizing h with
  | nil => rfl
  | cons a rs ih =>
    rw [List.nodup_cons] at hnd
    have ha : a < h.length := hlt a (List.mem_cons_self _ _)
    rw [List.map_cons, List.map_cons, updEach_cons]
    have hhead : (updEach (h.set a (f (h.getD a default))) rs f).getD a default
        = f (h.getD a default) := by
      rw [List.getD_eq_getElem?_getD, updEach_getElem?_not_mem _ _ _ _ hnd.1,
        List.getElem?_set_self (by simpa using ha)]
      rfl
    rw [hhead]
    have htail := ih (h.set a (f (h.getD a default))) hnd.2
      (fun r hrm => by simpa using hlt r (List.mem_cons_of_mem _ hrm))
    rw [htail]
    congr 1
    apply List.map_congr_left
    intro r hrm
    have hne : a ≠ r := fun he => hnd.1 (he ▸ hrm)
    simp [List.getD_eq_getElem?_getD, List.getElem?_set_ne hne]

lemma getD_range_map (l : List Page) :
    (List.range l.length).map (fun i => l.getD i default) = l := by
  apply List.ext_getElem (by simp)
  intro i h1 h2
  simp [List.getD_eq_getElem?_getD, List.getElem?_eq_getElem h2]

lemma getD_append_left (h l : Heap) (j : Nat) (hj : j < h.length) :
    (h ++ l).getD j default = h.getD j default := by
  rw [List.getD_eq_getElem?_getD, List.getD_eq_getElem?_getD,
    List.getElem?_append_left hj]

lemma getD_append_right_add (h l : Heap) (i : Nat) :
    (h ++ l).getD (h.length + i) default = l.getD i default := by
  rw [List.getD_eq_getElem?_getD, List.getD_eq_getElem?_getD,
    List.getElem?_append_right (by omega), Nat.add_sub_cancel_left]

lemma filter_map_comm (p : Page → Bool) (f : Nat → Page) (l : List Nat) :
    (l.filter (fun r => p (f r))).map f = (l.map f).filter p := by
  induction l with
  | nil => rfl
  | cons a l ih =>
    simp only [List.map_cons, List.filter_cons]
    by_cases hp : p (f a)
    · simp [hp, ih]
    · simp [hp, ih]

lemma updEach_stage (n k : Nat) (hc : Heap) (f : Page → Page)
    (hlen : hc.length = n + k) :
    (updEach hc ((List.range k).map (fun i => n + i)) f).length = n + k ∧
    (∀ j, j < n → (updEach hc ((List.range k).map (fun i => n + i)) f).getD j default
        = hc.getD j default) ∧
    ((List.range k).map (fun i => n + i)).map
        (fun r => (updEach hc ((List.range k).map (fun i => n + i)) f).getD r default)
      = (((List.range k).map (fun i => n + i)).map (fun r => hc.getD r default)).map f := by
  have hnd : ((List.range k).map (fun i => n + i)).Nodup :=
    (List.nodup_range k).map (fun a b hab => by simpa using hab)
  have hlt : ∀ r ∈ (List.range k).map (fun i => n + i), r < hc.length := by
    intro r hrm
    obtain ⟨i, hi, he⟩ := List.mem_map.mp hrm
    rw [List.mem_range] at hi
    have he2 : n + i = r := he
    omega
  refine ⟨by rw [updEach_length, hlen], ?_, ?_⟩
  · intro j hj
    have hjm : j ∉ (List.range k).map (fun i => n + i) := by
      intro hm
      obtain ⟨i, hi, he⟩ := List.mem_map.mp hm
      have he2 : n + i = j := he
      omega
    rw [List.getD_eq_getElem?_getD, List.getD_eq_getElem?_getD,
      updEach_getElem?_not_mem _ _ _ _ hjm]
  · rw [updEach_map_getD _ _ _ hnd hlt]
    simp [Function.comp]

lemma reads_append_copies (h copies : Heap) :
    ((List.range copies.length).map (fun i => h.length + i)).map
        (fun r => (h ++ copies).getD r default)
      = copies := by
  rw [List.map_map]
  have hc : ((fun r => (h ++ copies).getD r default) ∘ fun i => h.length + i)
      = fun i => copies.getD i default := by
    funext i
    show (h ++ copies).getD (h.length + i) default = copies.getD i default
    exact getD_append_right_add h copies i
  rw [hc, getD_range_map]

/-- C2: `normalize_document` deep-copies the document before any mutation
(normalise_document.py line 30), so the caller's document reads back
unchanged, the returned document's page cells are disjoint from the
input's, and the returned document's value is the functional
`normalize_document` of the input's value. -/
theorem c2_no_input_mutation (h : Heap) (d : DocRef) (θ : ℚ) (tn bn : Nat) (dt : Bool)
    (hin : ∀ r ∈ d.pageRefs, r < h.length) :
    readDoc (normalize_document_heap h d θ tn bn dt).1 d = readDoc h d ∧
    (∀ r ∈ (normalize_document_heap h d θ tn bn dt).2.pageRefs, r ∉ d.pageRefs) ∧
    readDoc (normalize_document_heap h d θ tn bn dt).1 (normalize_document_heap h d θ tn bn dt).2
      = normalize_document (readDoc h d) θ tn bn dt := by
  set k := d.pageRefs.length with hk
  set copies := d.pageRefs.map (fun r => h.getD r default) with hcopies
  set refs := (List.range k).map (fun i => h.length + i) with hrefs
  set h1 := h ++ copies with hh1
  set h2 := updEach h1 refs
      (fun p => { p with text := fix_hyphenation (normalize_whitespace p.text) }) with hh2
  set rl := detect_repeated_lines (refs.map (fun r => h2.getD r default)) tn bn θ with hrl
  set h3 := updEach h2 refs (fun p => { p with text := remove_lines p.text rl }) with hh3
  set h4 := updEach h3 refs
      (fun p => { p with is_table_like := some (is_table_like p.text) }) with hh4
  set h5 := updEach h4 refs (fun p => { p with text := reflow_lines p.text }) with hh5
  set kept := (if dt then refs.filter (fun r => !((h5.getD r default).is_table_like.getD false))
      else refs) with hkept
  have hmain : normalize_document_heap h d θ tn bn dt
      = (h5, { d with
          pageRefs := kept,
          full_text := joinNonEmptyPages (kept.map (fun r => h5.getD r default)) }) := rfl
  rw [hmain]
  have hlen1 : h1.length = h.length + k := by
    rw [hh1]
    simp [hcopies, hk]
  have hs2 := updEach_stage h.length k h1
    (fun p => { p with text := fix_hyphenation (normalize_whitespace p.text) }) hlen1
  rw [← hrefs, ← hh2] at hs2
  obtain ⟨hlen2, hframe2, hreads2⟩ := hs2
  have hreads0 : refs.map (fun r => h1.getD r default) = copies := by
    have hck : k = copies.length := by rw [hk, hcopies]; simp
    rw [hrefs, hh1, hck]
    exact reads_append_copies h copies
  rw [hreads0] at hreads2
  have hs3 := updEach_stage h.length k h2
    (fun p => { p with text := remove_lines p.text rl }) hlen2
  rw [← hrefs, ← hh3] at hs3
  obtain ⟨hlen3, hframe3, hreads3⟩ := hs3
  rw [hreads2] at hreads3
  have hs4 := updEach_stage h.length k h3
    (fun p => { p with is_table_like := some (is_table_like p.text) }) hlen3
  rw [← hrefs, ← hh4] at hs4
  obtain ⟨hlen4, hframe4, hreads4⟩ := hs4
  rw [hreads3] at hreads4
  have hs5 := updEach_stage h.length k h4
    (fun p => { p with text := reflow_lines p.text }) hlen4
  rw [← hrefs, ← hh5] at hs5
  obtain ⟨hlen5, hframe5, hreads5⟩ := hs5
  rw [hreads4] at hreads5
  have hrleq : rl = detect_repeated_lines (copies.map
      (fun p => { p with text := fix_hyphenation (normalize_whitespace p.text) })) tn bn θ := by
    rw [hrl, hreads2]
  rw [hrleq] at hreads5
  refine ⟨?_, ?_, ?_⟩
  · show readDoc h5 d = readDoc h d
    have hfr : ∀ r ∈ d.pageRefs, h5.getD r default = h.getD r default := by
      intro r hr
      have hrn : r < h.length := hin r hr
      rw [hframe5 r hrn, hframe4 r hrn, hframe3 r hrn, hframe2 r hrn, hh1]
      exact getD_append_left h copies r hrn
    simp only [readDoc]
    congr 1
    exact List.map_congr_left (fun r hr => hfr r hr)
  · show ∀ r ∈ kept, r ∉ d.pageRefs
    intro r hrk hrd
    have hrr : r ∈ refs := by
      rw [hkept] at hrk
      by_cases hdt : dt
      · rw [if_pos hdt] at hrk
        exact List.mem_of_mem_filter hrk
      · rwa [if_neg hdt] at hrk
    rw [hrefs] at hrr
    obtain ⟨i, hi, he⟩ := List.mem_map.mp hrr
    have he2 : h.length + i = r := he
    have hlt := hin r hrd
    omega
  · show readDoc h5 { d with
        pageRefs := kept,
        full_text := joinNonEmptyPages (kept.map (fun r => h5.getD r default)) }
      = normalize_document (readDoc h d) θ tn bn dt
    have hkeptmap : kept.map (fun r => h5.getD r default)
        = (if dt then (refs.map (fun r => h5.getD r default)).filter
              (fun p => !(p.is_table_like.getD false))
           else refs.map (fun r => h5.getD r default)) := by
      rw [hkept]
      by_cases hdt : dt
      · rw [if_pos hdt, if_pos hdt]
        exact filter_map_comm (fun p => !(p.is_table_like.getD false))
          (fun r => h5.getD r default) refs
      · rw [if_neg hdt, if_neg hdt]
    have hspec : normalize_document (readDoc h d) θ tn bn dt
        = { readDoc h d with
            pages := kept.map (fun r => h5.getD r default),
            full_text := joinNonEmptyPages (kept.map (fun r => h5.getD r default)) } := by
      rw [hkeptmap, hreads5]
      rfl
    rw [hspec]
    rfl

def hC2 : Heap := [⟨1, ['a'], none⟩, ⟨2, ['b'], none⟩]

def dC2 : DocRef := ⟨['d'], ['s'], ['t'], ['q'], [0, 1], ['f']⟩

theorem c2_no_input_mutation_witness :
    (∀ r ∈ dC2.pageRefs, r < hC2.length) ∧
    (readDoc (normalize_document_heap hC2 dC2 (6/10) 2 2 false).1 dC2 = readDoc hC2 dC2 ∧
     (∀ r ∈ (normalize_document_heap hC2 dC2 (6/10) 2 2 false).2.pageRefs, r ∉ dC2.pageRefs) ∧
     readDoc (normalize_document_heap hC2 dC2 (6/10) 2 2 false).1
        (normalize_document_heap hC2 dC2 (6/10) 2 2 false).2
      = normalize_document (readDoc hC2 dC2) (6/10) 2 2 false) :=
  ⟨by decide, c2_no_input_mutation hC2 dC2 (6/10) 2 2 false (by decide)⟩
